import Mathlib

/-!
Shallow embedding of the estate-pdf-organizer document-boundary engine.

Pages are one-indexed integers (`ℤ`, since classifier-supplied page numbers
are unvalidated Python ints), confidences are rationals standing for the
Python floats, and the filesystem is the list of paths that currently exist.
Fallible operations return `Except String`.

The corpus contains two incompatible shapes of `DocumentOrganizer`:
the file `organizer.py` holds a prototype whose `organize_document` takes a
list of page ranges and raises on existing output, while `processor.py` and
`tests/test_organizer.py` call a newer `organize_document(pdf_reader,
source_pdf_path, start_page, end_page, document_type, dry_run,
suggested_filename)` with per-type subdirectories and numeric-suffix
collision resolution.  That newer organizer is absent from the corpus, so it
is modelled from the spec below; the prototype is embedded faithfully as
`organize_document_ranges`.
-/

deriving instance DecidableEq for Except

/-- ClassificationResult dataclass of classifier.py: document type, confidence,
one-indexed inclusive page range, optional suggested filename. -/
structure ClassificationResult where
  document_type : String
  confidence : ℚ
  page_start : ℤ
  page_end : ℤ
  suggested_filename : Option String := none
deriving DecidableEq

/-- The ClassificationResult constructor of classifier.py: stores the fields and
raises ValueError unless the confidence lies in [0, 1].  The page range fields
are not validated. -/
def mkClassificationResult (document_type : String) (confidence : ℚ)
    (page_start page_end : ℤ) (suggested_filename : Option String) :
    Except String ClassificationResult :=
  if 0 ≤ confidence ∧ confidence ≤ 1 then
    .ok ⟨document_type, confidence, page_start, page_end, suggested_filename⟩
  else
    .error "Confidence must be between 0 and 1"

/-- DocumentMetadata record of the organizer: one artifact of the run. -/
structure DocumentMetadata where
  source_pdf : String
  start_page : ℤ
  end_page : ℤ
  document_type : String
  filename : String
  confidence : ℚ
  output_path : Option String := none
deriving DecidableEq

/-- Split a character list on a separator character (the pieces do not
contain the separator; n separators yield n+1 pieces). -/
def splitOnChar (c : Char) : List Char → List Char → List (List Char)
  | [], acc => [acc.reverse]
  | x :: xs, acc =>
    if x = c then acc.reverse :: splitOnChar c xs []
    else splitOnChar c xs (x :: acc)

/-- Python os.path.basename for slash-separated paths. -/
def basename (p : String) : String :=
  String.mk ((splitOnChar '/' p.data []).getLastD p.data)

/-- Helper for `splitext`: on the reversed character list, split at the first
dot (that is, the last dot of the filename), returning the reversed extension
characters and the reversed stem characters. -/
def splitextRev : List Char → Option (List Char × List Char)
  | [] => none
  | x :: xs =>
    if x = '.' then some ([], xs)
    else
      match splitextRev xs with
      | none => none
      | some (e, s) => some (x :: e, s)

/-- Python os.path.splitext: split a filename at its last dot into stem and
dot-prefixed extension; a filename without a dot gets an empty extension.
(The Python special case for a leading dot is not modelled; the engine only
splits names of the form stem.ext.) -/
def splitext (f : String) : String × String :=
  match splitextRev f.data.reverse with
  | none => (f, "")
  | some (e, s) => (String.mk s.reverse, String.mk ('.' :: e.reverse))

/-- Path.stem equivalent: basename without the extension. -/
def stem (p : String) : String :=
  (splitext (basename p)).1

/-- The generated default output filename
`<source-stem>_pages_<start>-<end>.pdf` used by both organizer shapes. -/
def default_filename (source_pdf : String) (start_page end_page : ℤ) : String :=
  stem source_pdf ++ "_pages_" ++ toString start_page ++ "-" ++ toString end_page ++ ".pdf"

/-- Insert a numeric suffix before the extension: `name.pdf` becomes
`name_<k>.pdf`. -/
def suffixed (base : String) (k : ℕ) : String :=
  (splitext base).1 ++ "_" ++ toString k ++ (splitext base).2

/-- The k-th candidate filename of the collision search: the base name first,
then `_1`, `_2`, ... suffixes. -/
def candidate_name (base : String) (k : ℕ) : String :=
  if k = 0 then base else suffixed base k

/-- Modelled from the spec: the collision search of the newer organizer
(absent from the corpus), section 4.2 collision policy: append a numeric
suffix until a free path is found, failing with CollisionResolutionExhausted
when the bounded number of attempts runs out. -/
def resolve_name (fs : List String) (dir base : String) : ℕ → ℕ → Option String
  | 0, _ => none
  | fuel + 1, k =>
    if (dir ++ "/" ++ candidate_name base k) ∈ fs then
      resolve_name fs dir base fuel (k + 1)
    else
      some (candidate_name base k)

/-- Modelled from the spec: `DocumentOrganizer.organize_document` in the shape
called by processor.py and tests/test_organizer.py, which is absent from the
corpus.  Spec section 4.2: validate `1 ≤ start ≤ end ≤ total_pages`; the
destination is `destinationRoot / document_type / filename` with `filename`
the suggested name when provided, else the generated default; collisions are
resolved by numeric suffixing regardless of `overwrite`; in dry-run mode no
file is written and the artifact has no output path.  Returns the artifact
and the new filesystem. -/
def organize_document (fs : List String) (output_dir : String) (total_pages : ℤ)
    (source_pdf : String) (start_page end_page : ℤ) (document_type : String)
    (overwrite dry_run : Bool) (suggested_filename : Option String) :
    Except String (DocumentMetadata × List String) :=
  if start_page < 1 then .error "Start page must be at least 1"
  else if end_page > total_pages then .error "End page exceeds total pages"
  else if start_page > end_page then .error "Start page is greater than end page"
  else
    let base := suggested_filename.getD (default_filename source_pdf start_page end_page)
    if dry_run then
      .ok (⟨source_pdf, start_page, end_page, document_type, base, 1, none⟩, fs)
    else
      let dir := output_dir ++ "/" ++ document_type
      match resolve_name fs dir base (fs.length + 1) 0 with
      | none => .error "CollisionResolutionExhausted"
      | some name =>
        .ok (⟨source_pdf, start_page, end_page, document_type, name, 1,
              some (dir ++ "/" ++ name)⟩, (dir ++ "/" ++ name) :: fs)

/-- Range validation loop of the organizer.py prototype (lines 82-88): check
every `(start, end)` pair in order before anything is written. -/
def validate_ranges (total_pages : ℤ) : List (ℤ × ℤ) → Except String Unit
  | [] => .ok ()
  | (s, e) :: rest =>
    if s < 1 then .error "Start page must be at least 1"
    else if e > total_pages then .error "End page exceeds total pages"
    else if s > e then .error "Start page is greater than end page"
    else validate_ranges total_pages rest

/-- Existing-output check of the organizer.py prototype (lines 91-101): when
neither dry-run nor overwrite, raise if any computed output path exists. -/
def check_existing (fs : List String) (output_dir source_pdf : String) :
    List (ℤ × ℤ) → Except String Unit
  | [] => .ok ()
  | (s, e) :: rest =>
    if (output_dir ++ "/" ++ default_filename source_pdf s e) ∈ fs then
      .error "Output file already exists"
    else check_existing fs output_dir source_pdf rest

/-- Write loop of the organizer.py prototype (lines 104-138): for each range
emit one file (unless dry-run), and append the artifact both to the returned
results and to the organizer metadata list.  The prototype records an output
path even in dry-run mode. -/
def write_ranges (output_dir source_pdf document_type : String) (dry_run : Bool) :
    List (ℤ × ℤ) → List DocumentMetadata → List String → List DocumentMetadata →
    List DocumentMetadata × List String × List DocumentMetadata
  | [], results, fs, meta => (results, fs, meta)
  | (s, e) :: rest, results, fs, meta =>
    let name := default_filename source_pdf s e
    let path := output_dir ++ "/" ++ name
    let d : DocumentMetadata := ⟨source_pdf, s, e, document_type, name, 1, some path⟩
    write_ranges output_dir source_pdf document_type dry_run rest
      (results ++ [d]) (if dry_run then fs else path :: fs) (meta ++ [d])

/-- The `DocumentOrganizer.organize_document` of the organizer.py prototype
actually present in the corpus: source-existence check, then validation of
every page range, then the existing-output check, then the write loop.  The
triple returned is (result or error, filesystem, organizer metadata list),
where the last two carry the state as it stands when an error is raised. -/
def organize_document_ranges (fs : List String) (output_dir source_pdf : String)
    (source_exists : Bool) (total_pages : ℤ) (page_ranges : List (ℤ × ℤ))
    (document_type : String) (dry_run overwrite : Bool) (meta : List DocumentMetadata) :
    Except String (List DocumentMetadata) × List String × List DocumentMetadata :=
  if ¬ source_exists then (.error "Source PDF file not found", fs, meta)
  else
    match validate_ranges total_pages page_ranges with
    | .error e => (.error e, fs, meta)
    | .ok _ =>
      match (if dry_run || overwrite then .ok ()
             else check_existing fs output_dir source_pdf page_ranges) with
      | .error e => (.error e, fs, meta)
      | .ok _ =>
        let r := write_ranges output_dir source_pdf document_type dry_run page_ranges [] fs meta
        (.ok r.1, r.2.1, r.2.2)

/-- A classifier, viewed through the window it is invoked on: the window text
handed to `DocumentClassifier.classify` is a function of the one-indexed
window bounds (each page tagged with its absolute number), so a classifier is
embedded as a function of those bounds. -/
def Classifier : Type :=
  ℤ → ℤ → List ClassificationResult

/-- The page set `range(page_start, page_end + 1)` of a candidate. -/
def pageRange (s e : ℤ) : Finset ℤ :=
  Finset.Icc s e

/-- State of `EstatePDFProcessor.process_pdf` and of the shared organizer:
scan cursor, pages claimed so far for the current source, accumulated
artifacts, recorded unprocessed-page lists, and the filesystem. -/
structure ScanState where
  current_page : ℤ
  processed : Finset ℤ
  artifacts : List DocumentMetadata
  unprocessed : List (String × List ℤ)
  fs : List String
deriving DecidableEq

/-- Body of the per-candidate loop of process_pdf (lines 159-183): skip a
candidate that overlaps already-claimed pages, otherwise organize it and mark
its pages claimed. -/
def process_candidate (output_dir source_pdf : String) (total_pages : ℤ)
    (overwrite dry_run : Bool) (s : ScanState) (c : ClassificationResult) :
    Except String ScanState :=
  if (pageRange c.page_start c.page_end ∩ s.processed).Nonempty then
    .ok s
  else
    match organize_document s.fs output_dir total_pages source_pdf c.page_start c.page_end
        c.document_type overwrite dry_run c.suggested_filename with
    | .error e => .error e
    | .ok (art, fs1) =>
      .ok { s with processed := s.processed ∪ pageRange c.page_start c.page_end,
                   artifacts := s.artifacts ++ [art], fs := fs1 }

/-- Fold of `process_candidate` over the sorted candidate list. -/
def process_candidates (output_dir source_pdf : String) (total_pages : ℤ)
    (overwrite dry_run : Bool) : ScanState → List ClassificationResult →
    Except String ScanState
  | s, [] => .ok s
  | s, c :: cs =>
    match process_candidate output_dir source_pdf total_pages overwrite dry_run s c with
    | .error e => .error e
    | .ok s1 => process_candidates output_dir source_pdf total_pages overwrite dry_run s1 cs

/-- The sort `classifications.sort(key=lambda x: x.page_start)`: stable by start
page. -/
def sortClassifications (l : List ClassificationResult) : List ClassificationResult :=
  l.insertionSort (fun a b => a.page_start ≤ b.page_start)

/-- One iteration of the while loop of process_pdf (lines 140-186): compute
the window, extract its text (which raises when the cursor is below page 1),
classify, and either advance the cursor by one page (no candidates) or
process the candidates in order and jump to `max(processed_pages) + 1`, or to
`window_end + 1` when no page was ever claimed. -/
def step_window (classify : Classifier) (output_dir source_pdf : String)
    (total_pages window_size : ℤ) (overwrite dry_run : Bool) (s : ScanState) :
    Except String ScanState :=
  let window_end := min (s.current_page + window_size - 1) total_pages
  if s.current_page < 1 then .error "Invalid page range"
  else
    let classifications := classify s.current_page window_end
    if classifications.isEmpty then
      .ok { s with current_page := s.current_page + 1 }
    else
      match process_candidates output_dir source_pdf total_pages overwrite dry_run s
          (sortClassifications classifications) with
      | .error e => .error e
      | .ok s1 =>
        .ok { s1 with current_page :=
                if h : s1.processed.Nonempty then s1.processed.max' h + 1
                else window_end + 1 }

/-- Result of a fuelled run: finished, raised, or fuel exhausted with the
loop still running. -/
inductive ScanOutcome where
  | done (s : ScanState)
  | fail (e : String)
  | timeout (s : ScanState)
deriving DecidableEq

/-- Is the run finished? -/
def ScanOutcome.isDone : ScanOutcome → Bool
  | .done _ => true
  | _ => false

/-- The while loop of process_pdf, indexed by fuel: iterate `step_window`
while `current_page ≤ total_pages`. -/
def scan_loop (classify : Classifier) (output_dir source_pdf : String)
    (total_pages window_size : ℤ) (overwrite dry_run : Bool) :
    ℕ → ScanState → ScanOutcome
  | 0, s => .timeout s
  | fuel + 1, s =>
    if s.current_page ≤ total_pages then
      match step_window classify output_dir source_pdf total_pages window_size
          overwrite dry_run s with
      | .error e => .fail e
      | .ok s1 =>
        scan_loop classify output_dir source_pdf total_pages window_size
          overwrite dry_run fuel s1
    else .done s

/-- The list `sorted(all_pages - processed_pages)` of process_pdf line 190: the
ascending enumeration of the pages of `[1, total_pages]` that were never
claimed. -/
def unprocessed_list (total_pages : ℤ) (processed : Finset ℤ) : List ℤ :=
  ((List.range total_pages.toNat).map (fun (i : ℕ) => (1 : ℤ) + (i : ℤ))).filter
    (fun p => p ∉ processed)

/-- Grouping loop of process_pdf (lines 196-204): extend the current group
while the next page is consecutive, otherwise emit it and start a new one. -/
def group_runs_go (cur : List ℤ) (lastPage : ℤ) : List ℤ → List (List ℤ)
  | [] => [cur]
  | p :: ps =>
    if p = lastPage + 1 then group_runs_go (cur ++ [p]) p ps
    else cur :: group_runs_go [p] p ps

/-- Partition a page list into its groups of consecutive pages, as
process_pdf does (an empty list yields no groups). -/
def group_runs : List ℤ → List (List ℤ)
  | [] => []
  | p :: ps => group_runs_go [p] p ps

/-- The suggested filename process_pdf passes for an unclaimed group
(line 215). -/
def unorganized_name (g : List ℤ) : String :=
  "unorganized_pages_" ++ toString (g.headD 0) ++ "-" ++ toString (g.getLastD 0) ++ ".pdf"

/-- Final phase of process_pdf (lines 207-216): organize one Unorganized
artifact per group of consecutive unclaimed pages. -/
def finalize_unprocessed (output_dir source_pdf : String) (total_pages : ℤ)
    (overwrite dry_run : Bool) : List (List ℤ) → ScanState → Except String ScanState
  | [], s => .ok s
  | g :: gs, s =>
    match organize_document s.fs output_dir total_pages source_pdf (g.headD 0) (g.getLastD 0)
        "Unorganized" overwrite dry_run (some (unorganized_name g)) with
    | .error e => .error e
    | .ok (art, fs1) =>
      finalize_unprocessed output_dir source_pdf total_pages overwrite dry_run gs
        { s with artifacts := s.artifacts ++ [art], fs := fs1 }

/-- The method `EstatePDFProcessor.process_pdf`: run the windowed scan from page 1 with
nothing claimed, then record the sorted unclaimed pages (when any) and emit
one Unorganized artifact per maximal consecutive group.  Artifacts, recorded
unprocessed pages and the filesystem persist across calls through the shared
organizer, so they are taken over from the caller. -/
def process_pdf (classify : Classifier) (output_dir source_pdf : String)
    (total_pages window_size : ℤ) (overwrite dry_run : Bool) (fuel : ℕ)
    (artifacts0 : List DocumentMetadata) (unprocessed0 : List (String × List ℤ))
    (fs0 : List String) : ScanOutcome :=
  match scan_loop classify output_dir source_pdf total_pages window_size overwrite dry_run
      fuel ⟨1, ∅, artifacts0, unprocessed0, fs0⟩ with
  | .timeout s => .timeout s
  | .fail e => .fail e
  | .done s =>
    let up := unprocessed_list total_pages s.processed
    if up.isEmpty then .done s
    else
      match finalize_unprocessed output_dir source_pdf total_pages overwrite dry_run
          (group_runs up) { s with unprocessed := s.unprocessed ++ [(source_pdf, up)] } with
      | .error e => .fail e
      | .ok s1 => .done s1

/-- One source document of a directory run: its path, its page count, and the
classifier behaviour on its windows. -/
structure SourceDoc where
  path : String
  total_pages : ℤ
  classify : Classifier

/-- The per-file loop of `EstatePDFProcessor.process_directory`. -/
def process_docs (output_dir : String) (window_size : ℤ) (overwrite dry_run : Bool)
    (fuel : ℕ) : List SourceDoc → ScanState → ScanOutcome
  | [], s => .done s
  | d :: ds, s =>
    match process_pdf d.classify output_dir d.path d.total_pages window_size overwrite dry_run
        fuel s.artifacts s.unprocessed s.fs with
    | .fail e => .fail e
    | .timeout s1 => .timeout s1
    | .done s1 => process_docs output_dir window_size overwrite dry_run fuel ds s1

/-- The method `EstatePDFProcessor.process_directory`: process every source document,
then, unless in dry-run mode, write the metadata sidecar next to the outputs
(the path is built from the stem of the last processed file; with no files
the name lookup raises). -/
def process_directory (docs : List SourceDoc) (output_dir : String) (window_size : ℤ)
    (overwrite dry_run : Bool) (fuel : ℕ) (artifacts0 : List DocumentMetadata)
    (unprocessed0 : List (String × List ℤ)) (fs0 : List String) : ScanOutcome :=
  match process_docs output_dir window_size overwrite dry_run fuel docs
      ⟨1, ∅, artifacts0, unprocessed0, fs0⟩ with
  | .fail e => .fail e
  | .timeout s => .timeout s
  | .done s =>
    if dry_run then .done s
    else
      match docs.getLast? with
      | none => .fail "NameError"
      | some d =>
        .done { s with fs := (output_dir ++ "/" ++ stem d.path ++ "_metadata.yaml") :: s.fs }

/-- Structured value standing for the serialized YAML sidecar. -/
inductive Yaml where
  | str (s : String)
  | int (n : ℤ)
  | rat (q : ℚ)
  | null
  | list (xs : List Yaml)
  | map (kvs : List (String × Yaml))

/-- Top-level keys of a YAML mapping. -/
def Yaml.keys : Yaml → List String
  | .map kvs => kvs.map (fun kv => kv.1)
  | _ => []

/-- Modelled from the spec: one artifact record of the sidecar, section 6:
`source`, `start_page`, `end_page`, `type`, `filename`, `confidence`,
`output_path`. -/
def artifact_record (d : DocumentMetadata) : Yaml :=
  .map [("source", .str d.source_pdf),
        ("start_page", .int d.start_page),
        ("end_page", .int d.end_page),
        ("type", .str d.document_type),
        ("filename", .str d.filename),
        ("confidence", .rat d.confidence),
        ("output_path", match d.output_path with | none => .null | some p => .str p)]

/-- Modelled from the spec: `save_metadata` of the newer organizer (absent
from the corpus; the prototype in organizer.py serializes only `documents`).
Section 6: a record with exactly the two top-level fields `documents` and
`unprocessed_pages`. -/
def save_metadata (artifacts : List DocumentMetadata)
    (unprocessed : List (String × List ℤ)) : Yaml :=
  .map [("documents", .list (artifacts.map artifact_record)),
        ("unprocessed_pages", .map (unprocessed.map (fun su => (su.1, .list (su.2.map Yaml.int)))))]

/-- The page ranges of a list of artifacts. -/
def ranges (l : List DocumentMetadata) : List (Finset ℤ) :=
  l.map (fun a => pageRange a.start_page a.end_page)

/-- The set of pages covered by a list of artifacts. -/
def covered (l : List DocumentMetadata) : Finset ℤ :=
  (ranges l).foldr (· ∪ ·) ∅

/-- Helper predicate: the second state has the same filesystem and only adds
artifacts without an output path. -/
def dry_extends (s s1 : ScanState) : Prop :=
  s1.fs = s.fs ∧ ∃ new, s1.artifacts = s.artifacts ++ new ∧ ∀ a ∈ new, a.output_path = none

theorem organize_document_dry_exact {fs : List String} {output_dir : String} {total_pages : ℤ}
    {source_pdf : String} {start_page end_page : ℤ} {document_type : String}
    {overwrite : Bool} {suggested_filename : Option String}
    {art : DocumentMetadata} {fs1 : List String}
    (h : organize_document fs output_dir total_pages source_pdf start_page end_page
      document_type overwrite true suggested_filename = .ok (art, fs1)) :
    art = ⟨source_pdf, start_page, end_page, document_type,
      suggested_filename.getD (default_filename source_pdf start_page end_page), 1, none⟩ ∧
    fs1 = fs := by
  unfold organize_document at h
  by_cases h1 : start_page < 1
  · rw [if_pos h1] at h; cases h
  rw [if_neg h1] at h
  by_cases h2 : end_page > total_pages
  · rw [if_pos h2] at h; cases h
  rw [if_neg h2] at h
  by_cases h3 : start_page > end_page
  · rw [if_pos h3] at h; cases h
  rw [if_neg h3] at h
  simp only [if_true] at h
  have := Except.ok.inj h
  exact ⟨(congrArg Prod.fst this).symm, (congrArg Prod.snd this).symm⟩

theorem organize_document_wet_ok {fs : List String} {output_dir : String} {total_pages : ℤ}
    {source_pdf : String} {start_page end_page : ℤ} {document_type : String}
    {overwrite : Bool} {suggested_filename : Option String}
    {art : DocumentMetadata} {fs1 : List String}
    (h : organize_document fs output_dir total_pages source_pdf start_page end_page
      document_type overwrite false suggested_filename = .ok (art, fs1)) :
    ∃ name, art.filename = name ∧
      art.output_path = some (output_dir ++ "/" ++ document_type ++ "/" ++ name) ∧
      fs1 = (output_dir ++ "/" ++ document_type ++ "/" ++ name) :: fs := by
  unfold organize_document at h
  by_cases h1 : start_page < 1
  · rw [if_pos h1] at h; cases h
  rw [if_neg h1] at h
  by_cases h2 : end_page > total_pages
  · rw [if_pos h2] at h; cases h
  rw [if_neg h2] at h
  by_cases h3 : start_page > end_page
  · rw [if_pos h3] at h; cases h
  rw [if_neg h3] at h
  simp only [Bool.false_eq_true, if_false] at h
  cases hres : resolve_name fs (output_dir ++ "/" ++ document_type)
      (suggested_filename.getD (default_filename source_pdf start_page end_page))
      (fs.length + 1) 0 with
  | none => rw [hres] at h; cases h
  | some name =>
    rw [hres] at h
    have := Except.ok.inj h
    have ha := congrArg Prod.fst this
    have hf := congrArg Prod.snd this
    simp at ha hf
    rw [← ha, ← hf]
    exact ⟨name, rfl, rfl, rfl⟩

theorem organize_document_fs_mem {fs : List String} {output_dir : String} {total_pages : ℤ}
    {source_pdf : String} {start_page end_page : ℤ} {document_type : String}
    {overwrite dry_run : Bool} {suggested_filename : Option String}
    {art : DocumentMetadata} {fs1 : List String}
    (h : organize_document fs output_dir total_pages source_pdf start_page end_page
      document_type overwrite dry_run suggested_filename = .ok (art, fs1)) :
    ∀ p, p ∈ fs1 ↔ p ∈ fs ∨ art.output_path = some p := by
  intro p
  by_cases hd : dry_run
  · subst hd
    obtain ⟨ha, ho⟩ := organize_document_dry_exact h
    rw [ho, ha]
    simp
  · rw [Bool.not_eq_true] at hd
    subst hd
    obtain ⟨name, -, ho, hfs⟩ := organize_document_wet_ok h
    rw [hfs, ho]
    constructor
    · intro hp
      rcases List.mem_cons.mp hp with h2 | h2
      · exact Or.inr (by rw [h2])
      · exact Or.inl h2
    · rintro (h2 | h2)
      · exact List.mem_cons_of_mem _ h2
      · simp at h2
        rw [h2]
        exact List.mem_cons_self _ _

theorem organize_document_wet_free {fs : List String} {output_dir : String} {total_pages : ℤ}
    {source_pdf : String} {start_page end_page : ℤ} {document_type : String}
    {overwrite : Bool} {suggested_filename : Option String}
    {art : DocumentMetadata} {fs1 : List String}
    (h : organize_document fs output_dir total_pages source_pdf start_page end_page
      document_type overwrite false suggested_filename = .ok (art, fs1))
    (hfree : (output_dir ++ "/" ++ document_type ++ "/" ++
      suggested_filename.getD (default_filename source_pdf start_page end_page)) ∉ fs) :
    art = ⟨source_pdf, start_page, end_page, document_type,
      suggested_filename.getD (default_filename source_pdf start_page end_page), 1,
      some (output_dir ++ "/" ++ document_type ++ "/" ++
        suggested_filename.getD (default_filename source_pdf start_page end_page))⟩ ∧
    fs1 = (output_dir ++ "/" ++ document_type ++ "/" ++
      suggested_filename.getD (default_filename source_pdf start_page end_page)) :: fs := by
  unfold organize_document at h
  by_cases h1 : start_page < 1
  · rw [if_pos h1] at h; cases h
  rw [if_neg h1] at h
  by_cases h2 : end_page > total_pages
  · rw [if_pos h2] at h; cases h
  rw [if_neg h2] at h
  by_cases h3 : start_page > end_page
  · rw [if_pos h3] at h; cases h
  rw [if_neg h3] at h
  simp only [Bool.false_eq_true, if_false] at h
  rw [resolve_name, if_neg (by simpa [candidate_name] using hfree)] at h
  simp only [candidate_name, if_pos rfl] at h
  have := Except.ok.inj h
  have ha := congrArg Prod.fst this
  have hf := congrArg Prod.snd this
  simp at ha hf
  exact ⟨ha.symm, hf.symm⟩

/-- Invariant of the boundary scan: the artifacts added since the start of
the scan claim exactly the processed pages, pairwise disjointly, all within
valid bounds, and the filesystem grew by exactly their output paths. -/
def scan_inv (total_pages : ℤ) (artifacts0 : List DocumentMetadata) (fs0 : List String)
    (s : ScanState) : Prop :=
  ∃ new, s.artifacts = artifacts0 ++ new ∧
    covered new = s.processed ∧
    List.Pairwise (fun A B => Disjoint A B) (ranges new) ∧
    (∀ a ∈ new, 1 ≤ a.start_page ∧ a.start_page ≤ a.end_page ∧ a.end_page ≤ total_pages) ∧
    ∀ p, p ∈ s.fs ↔ p ∈ fs0 ∨ ∃ a ∈ new, a.output_path = some p

/-- A classifier that always returns the single span covering page 1 only. -/
def overlap_classifier : Classifier :=
  fun _ _ => [⟨"Will", 1, 1, 1, none⟩]

/-- A classifier that never returns a candidate. -/
def empty_classifier : Classifier :=
  fun _ _ => []

/-- C10: constructing a ClassificationResult succeeds exactly when the
confidence lies in [0, 1]; the page range fields are never validated, so any
page_start and page_end (start greater than end, values below 1, negatives)
are accepted whenever the confidence is in range. -/
theorem mkClassificationResult_ok_iff (document_type : String) (confidence : ℚ)
    (page_start page_end : ℤ) (suggested_filename : Option String) :
    (mkClassificationResult document_type confidence page_start page_end
        suggested_filename).isOk = true ↔ 0 ≤ confidence ∧ confidence ≤ 1 := by
  unfold mkClassificationResult
  by_cases h : 0 ≤ confidence ∧ confidence ≤ 1
  · simp [h, Except.isOk, Except.toBool]
  · simp [h, Except.isOk, Except.toBool]

/-! ### Decimal and filename toolkit -/

theorem toDigitsCore_eq_digits (f : ℕ) :
    ∀ (n : ℕ) (ds : List Char), n ≠ 0 → n < 10 ^ f →
    Nat.toDigitsCore 10 f n ds = ((Nat.digits 10 n).map Nat.digitChar).reverse ++ ds := by
  induction f with
  | zero =>
    intro n ds hn hf
    simp at hf
    omega
  | succ f ih =>
    intro n ds hn hf
    rw [Nat.toDigitsCore]
    by_cases h : n / 10 = 0
    · simp only [h, if_true]
      rw [Nat.digits_def' (by norm_num : (1:ℕ) < 10) (Nat.pos_of_ne_zero hn), h]
      simp
    · simp only [h, if_false]
      have hlt : n / 10 < 10 ^ f := by
        have h2 : n < 10 * 10 ^ f := by
          rw [← pow_succ']
          exact hf
        exact Nat.div_lt_of_lt_mul h2
      rw [ih (n / 10) _ h hlt]
      rw [Nat.digits_def' (by norm_num : (1:ℕ) < 10) (Nat.pos_of_ne_zero hn)]
      simp

theorem toDigits_eq_digits (n : ℕ) (hn : n ≠ 0) :
    Nat.toDigits 10 n = ((Nat.digits 10 n).map Nat.digitChar).reverse := by
  have h := toDigitsCore_eq_digits (n + 1) n [] hn
    (lt_of_lt_of_le (Nat.lt_pow_self (by norm_num) n)
      (Nat.pow_le_pow_right (by norm_num) (Nat.le_succ n)))
  simpa [Nat.toDigits] using h

theorem digitChar_inj_lt : ∀ d < 10, ∀ e < 10, Nat.digitChar d = Nat.digitChar e → d = e := by
  decide

theorem map_digitChar_inj : ∀ (l1 l2 : List ℕ), (∀ d ∈ l1, d < 10) → (∀ d ∈ l2, d < 10) →
    l1.map Nat.digitChar = l2.map Nat.digitChar → l1 = l2 := by
  intro l1
  induction l1 with
  | nil => intro l2 _ _ h; cases l2 <;> simp_all
  | cons a l ih =>
    intro l2 h1 h2 h
    cases l2 with
    | nil => simp_all
    | cons b m =>
      simp only [List.map_cons, List.cons.injEq] at h
      have hab : a = b := digitChar_inj_lt a (h1 a (by simp)) b (h2 b (by simp)) h.1
      have := ih m (fun d hd => h1 d (by simp [hd])) (fun d hd => h2 d (by simp [hd])) h.2
      simp [hab, this]

theorem toDigits_ne_singleton_zero (n : ℕ) (hn : n ≠ 0) : Nat.toDigits 10 n ≠ ['0'] := by
  intro hcon
  rw [toDigits_eq_digits n hn] at hcon
  have hmap : (Nat.digits 10 n).map Nat.digitChar = ['0'] := by
    have := congrArg List.reverse hcon
    simpa using this
  have hlen : (Nat.digits 10 n).length = 1 := by
    have := congrArg List.length hmap
    simpa using this
  obtain ⟨d, hdig⟩ : ∃ d, Nat.digits 10 n = [d] := by
    cases hdg : Nat.digits 10 n with
    | nil => rw [hdg] at hlen; simp at hlen
    | cons x xs =>
      rw [hdg] at hlen
      simp at hlen
      exact ⟨x, by simp [hlen]⟩
  rw [hdig] at hmap
  simp at hmap
  have hd10 : d < 10 := Nat.digits_lt_base (by norm_num) (by rw [hdig]; simp)
  have hdz : d = 0 := digitChar_inj_lt d hd10 0 (by norm_num) (by simpa using hmap)
  have hofd := Nat.ofDigits_digits 10 n
  rw [hdig, hdz] at hofd
  simp [Nat.ofDigits] at hofd
  exact hn hofd.symm

theorem nat_repr_injective : Function.Injective Nat.repr := by
  intro m n h
  have hd : Nat.toDigits 10 m = Nat.toDigits 10 n := by
    have h2 : (Nat.toDigits 10 m).asString = (Nat.toDigits 10 n).asString := h
    exact List.asString_inj.mp h2
  by_cases hm : m = 0 <;> by_cases hn : n = 0
  · omega
  · exact absurd hd.symm (by simpa [hm] using toDigits_ne_singleton_zero n hn)
  · exact absurd hd (by simpa [hn] using toDigits_ne_singleton_zero m hm)
  · rw [toDigits_eq_digits m hm, toDigits_eq_digits n hn] at hd
    have hmap : (Nat.digits 10 m).map Nat.digitChar = (Nat.digits 10 n).map Nat.digitChar := by
      have := congrArg List.reverse hd
      simpa using this
    have hdig : Nat.digits 10 m = Nat.digits 10 n :=
      map_digitChar_inj _ _ (fun d hd2 => Nat.digits_lt_base (by norm_num) hd2)
        (fun d hd2 => Nat.digits_lt_base (by norm_num) hd2) hmap
    have h3 := congrArg (Nat.ofDigits 10) hdig
    rwa [Nat.ofDigits_digits, Nat.ofDigits_digits] at h3

theorem nat_repr_data_ne_nil (n : ℕ) : (Nat.repr n).data ≠ [] := by
  by_cases hn : n = 0
  · subst hn
    intro h
    rw [show (Nat.repr 0).data = ['0'] from rfl] at h
    cases h
  · have : (Nat.repr n).data = Nat.toDigits 10 n := rfl
    rw [this, toDigits_eq_digits n hn]
    simp [Nat.digits_ne_nil_iff_ne_zero.mpr hn]

theorem splitextRev_some (r : List Char) :
    ∀ e s, splitextRev r = some (e, s) → r = e ++ '.' :: s := by
  induction r with
  | nil => intro e s h; simp [splitextRev] at h
  | cons x xs ih =>
    intro e s h
    by_cases hx : x = '.'
    · rw [splitextRev, if_pos hx] at h
      simp at h
      obtain ⟨he, hs⟩ := h
      subst hx
      rw [he, ← hs]
      simp
    · rw [splitextRev, if_neg hx] at h
      cases hsp : splitextRev xs with
      | none => rw [hsp] at h; simp at h
      | some p =>
        obtain ⟨e1, s1⟩ := p
        rw [hsp] at h
        simp at h
        obtain ⟨he, hs⟩ := h
        rw [← he, ← hs]
        simpa using ih e1 s1 hsp

theorem splitext_data (f : String) :
    (splitext f).1.data ++ (splitext f).2.data = f.data := by
  unfold splitext
  cases hsp : splitextRev f.data.reverse with
  | none => simp
  | some p =>
    obtain ⟨e, s⟩ := p
    have h := splitextRev_some f.data.reverse e s hsp
    have h2 : f.data = s.reverse ++ '.' :: e.reverse := by
      have := congrArg List.reverse h
      simpa using this
    simp [h2]

theorem suffixed_data (base : String) (k : ℕ) :
    (suffixed base k).data =
      (splitext base).1.data ++ '_' :: (Nat.repr k).data ++ (splitext base).2.data := by
  show ((splitext base).1 ++ "_" ++ toString k ++ (splitext base).2).data = _
  simp [String.data_append]
  rfl

theorem suffixed_length (base : String) (k : ℕ) :
    base.data.length < (suffixed base k).data.length := by
  rw [suffixed_data]
  have h1 := splitext_data base
  have h2 := congrArg List.length h1
  simp at h2
  have h3 : (Nat.repr k).data.length ≠ 0 := by
    intro hc
    exact nat_repr_data_ne_nil k (List.length_eq_zero.mp hc)
  simp
  omega

theorem candidate_name_injective (base : String) : Function.Injective (candidate_name base) := by
  intro j k h
  unfold candidate_name at h
  by_cases hj : j = 0 <;> by_cases hk : k = 0
  · omega
  · rw [if_pos hj, if_neg hk] at h
    have := suffixed_length base k
    rw [← h] at this
    omega
  · rw [if_neg hj, if_pos hk] at h
    have := suffixed_length base j
    rw [h] at this
    omega
  · rw [if_neg hj, if_neg hk] at h
    have hdata := congrArg String.data h
    rw [suffixed_data, suffixed_data] at hdata
    rw [List.append_assoc, List.append_assoc] at hdata
    have h2 := List.append_cancel_left hdata
    simp only [List.cons_append] at h2
    have h3 : (Nat.repr j).data ++ (splitext base).2.data =
        (Nat.repr k).data ++ (splitext base).2.data := by
      injection h2
    have h4 := List.append_cancel_right h3
    exact nat_repr_injective (String.ext h4)

theorem path_injective (dir base : String) :
    Function.Injective (fun k => dir ++ "/" ++ candidate_name base k) := by
  intro j k h
  simp only at h
  have hdata := congrArg String.data h
  rw [String.data_append, String.data_append] at hdata
  have h2 := List.append_cancel_left hdata
  exact candidate_name_injective base (String.ext h2)

theorem resolve_name_success (fs : List String) (dir base : String) :
    ∀ (fuel k : ℕ), (∃ j, k ≤ j ∧ j < k + fuel ∧ (dir ++ "/" ++ candidate_name base j) ∉ fs) →
    ∃ j, k ≤ j ∧ resolve_name fs dir base fuel k = some (candidate_name base j) ∧
      (dir ++ "/" ++ candidate_name base j) ∉ fs ∧
      (∀ i, k ≤ i → i < j → (dir ++ "/" ++ candidate_name base i) ∈ fs) := by
  intro fuel
  induction fuel with
  | zero =>
    intro k h
    obtain ⟨j, h1, h2, _⟩ := h
    omega
  | succ fuel ih =>
    intro k h
    rw [resolve_name]
    by_cases hmem : (dir ++ "/" ++ candidate_name base k) ∈ fs
    · rw [if_pos hmem]
      have hnext : ∃ j, k + 1 ≤ j ∧ j < (k + 1) + fuel ∧
          (dir ++ "/" ++ candidate_name base j) ∉ fs := by
        obtain ⟨j, h1, h2, h3⟩ := h
        refine ⟨j, ?_, by omega, h3⟩
        rcases Nat.lt_or_ge k j with hlt | hge
        · omega
        · have : j = k := by omega
          subst this
          exact absurd hmem h3
      obtain ⟨j, h1, h2, h3, h4⟩ := ih (k + 1) hnext
      refine ⟨j, by omega, h2, h3, ?_⟩
      intro i hi1 hi2
      rcases Nat.lt_or_ge i (k + 1) with hlt | hge
      · have : i = k := by omega
        subst this
        exact hmem
      · exact h4 i hge hi2
    · rw [if_neg hmem]
      exact ⟨k, le_refl k, rfl, hmem, by omega⟩

theorem exists_free_candidate (fs : List String) (dir base : String) (k : ℕ) :
    ∃ j, k ≤ j ∧ j < k + (fs.length + 1) ∧ (dir ++ "/" ++ candidate_name base j) ∉ fs := by
  by_contra hcon
  push_neg at hcon
  set cands : List String :=
    (List.range (fs.length + 1)).map (fun i => dir ++ "/" ++ candidate_name base (k + i)) with hc
  have hnodup : cands.Nodup := by
    rw [hc]
    refine List.Nodup.map ?_ (List.nodup_range _)
    intro a b hab
    have := path_injective dir base hab
    omega
  have hsub : ∀ x ∈ cands, x ∈ fs := by
    intro x hx
    rw [hc] at hx
    simp only [List.mem_map, List.mem_range] at hx
    obtain ⟨i, hi, rfl⟩ := hx
    exact hcon (k + i) (by omega) (by omega)
  have hcard : cands.length ≤ fs.length := by
    calc cands.length = cands.toFinset.card := (List.toFinset_card_of_nodup hnodup).symm
    _ ≤ fs.toFinset.card := Finset.card_le_card (by
        intro x hx
        rw [List.mem_toFinset] at hx
        rw [List.mem_toFinset]
        exact hsub x hx)
    _ ≤ fs.length := List.toFinset_card_le fs
  rw [hc] at hcard
  simp at hcard

/-- C5: for every extraction with a valid range, when a file already exists at
the computed destination path the organizer does not raise; it resolves the
name by appending numeric suffixes until a free path is found (every earlier
candidate was taken, the final path is free), and the whole behaviour is
independent of the overwrite flag. -/
theorem organize_document_collision_suffix (fs : List String) (output_dir : String)
    (total_pages : ℤ) (source_pdf : String) (start_page end_page : ℤ)
    (document_type : String) (ow1 ow2 : Bool) (suggested_filename : Option String)
    (hs : 1 ≤ start_page) (he : end_page ≤ total_pages) (hse : start_page ≤ end_page) :
    organize_document fs output_dir total_pages source_pdf start_page end_page
        document_type ow1 false suggested_filename =
      organize_document fs output_dir total_pages source_pdf start_page end_page
        document_type ow2 false suggested_filename ∧
    ∃ art fs1, organize_document fs output_dir total_pages source_pdf start_page end_page
        document_type ow1 false suggested_filename = .ok (art, fs1) ∧
      art.output_path = some (output_dir ++ "/" ++ document_type ++ "/" ++ art.filename) ∧
      (output_dir ++ "/" ++ document_type ++ "/" ++ art.filename) ∉ fs ∧
      fs1 = (output_dir ++ "/" ++ document_type ++ "/" ++ art.filename) :: fs ∧
      ∃ k, art.filename = candidate_name
            (suggested_filename.getD (default_filename source_pdf start_page end_page)) k ∧
        (∀ i, i < k → (output_dir ++ "/" ++ document_type ++ "/" ++ candidate_name
            (suggested_filename.getD (default_filename source_pdf start_page end_page)) i) ∈ fs) ∧
        ((output_dir ++ "/" ++ document_type ++ "/" ++
            suggested_filename.getD (default_filename source_pdf start_page end_page)) ∈ fs →
          1 ≤ k ∧ art.filename = suffixed
            (suggested_filename.getD (default_filename source_pdf start_page end_page)) k) := by
  constructor
  · rfl
  · obtain ⟨j, hj0, hres, hfree, hmin⟩ :=
      resolve_name_success fs (output_dir ++ "/" ++ document_type)
        (suggested_filename.getD (default_filename source_pdf start_page end_page))
        (fs.length + 1) 0
        (exists_free_candidate fs (output_dir ++ "/" ++ document_type)
          (suggested_filename.getD (default_filename source_pdf start_page end_page)) 0)
    unfold organize_document
    rw [if_neg (by omega), if_neg (by omega), if_neg (by omega)]
    simp only [Bool.false_eq_true, if_false]
    rw [hres]
    refine ⟨_, _, rfl, rfl, hfree, rfl, j, rfl, ?_, ?_⟩
    · intro i hi
      exact hmin i (by omega) hi
    · intro hbase
      have hj1 : 1 ≤ j := by
        by_contra hc
        have : j = 0 := by omega
        subst this
        exact hfree (by simpa [candidate_name] using hbase)
      refine ⟨hj1, ?_⟩
      have : j ≠ 0 := by omega
      simp [candidate_name, this]

/-- C7: for every successful extraction whose first-choice path is free, the
destination path is destinationRoot/document_type/filename, where filename is
the suggested filename when provided and otherwise the generated default
stem_pages_start-end.pdf. -/
theorem organize_document_destination_path (fs : List String) (output_dir : String)
    (total_pages : ℤ) (source_pdf : String) (start_page end_page : ℤ)
    (document_type : String) (overwrite : Bool) (suggested_filename : Option String)
    (hs : 1 ≤ start_page) (he : end_page ≤ total_pages) (hse : start_page ≤ end_page)
    (hfree : (output_dir ++ "/" ++ document_type ++ "/" ++
        suggested_filename.getD (default_filename source_pdf start_page end_page)) ∉ fs) :
    organize_document fs output_dir total_pages source_pdf start_page end_page
        document_type overwrite false suggested_filename =
      .ok (⟨source_pdf, start_page, end_page, document_type,
            suggested_filename.getD (default_filename source_pdf start_page end_page), 1,
            some (output_dir ++ "/" ++ document_type ++ "/" ++
              suggested_filename.getD (default_filename source_pdf start_page end_page))⟩,
           (output_dir ++ "/" ++ document_type ++ "/" ++
              suggested_filename.getD (default_filename source_pdf start_page end_page)) :: fs) ∧
    (∀ f, suggested_filename = some f →
      suggested_filename.getD (default_filename source_pdf start_page end_page) = f) ∧
    (suggested_filename = none →
      suggested_filename.getD (default_filename source_pdf start_page end_page) =
        stem source_pdf ++ "_pages_" ++ toString start_page ++ "-" ++ toString end_page ++ ".pdf") := by
  refine ⟨?_, ?_, ?_⟩
  · unfold organize_document
    rw [if_neg (by omega), if_neg (by omega), if_neg (by omega)]
    simp only [Bool.false_eq_true, if_false]
    rw [resolve_name, if_neg (by simpa [candidate_name] using hfree)]
    simp [candidate_name]
  · intro f hf
    simp [hf]
  · intro hf
    simp [hf, default_filename]

theorem organize_document_dry (fs : List String) (output_dir : String)
    (total_pages : ℤ) (source_pdf : String) (start_page end_page : ℤ)
    (document_type : String) (overwrite : Bool) (suggested_filename : Option String)
    (art : DocumentMetadata) (fs1 : List String)
    (h : organize_document fs output_dir total_pages source_pdf start_page end_page
        document_type overwrite true suggested_filename = .ok (art, fs1)) :
    fs1 = fs ∧ art.output_path = none := by
  unfold organize_document at h
  by_cases h1 : start_page < 1
  · rw [if_pos h1] at h; cases h
  rw [if_neg h1] at h
  by_cases h2 : end_page > total_pages
  · rw [if_pos h2] at h; cases h
  rw [if_neg h2] at h
  by_cases h3 : start_page > end_page
  · rw [if_pos h3] at h; cases h
  rw [if_neg h3] at h
  simp only [if_true] at h
  obtain ⟨ha, hf⟩ : (⟨source_pdf, start_page, end_page, document_type,
      suggested_filename.getD (default_filename source_pdf start_page end_page), 1, none⟩ :
        DocumentMetadata) = art ∧ fs = fs1 := by
    have := Except.ok.inj h
    exact ⟨congrArg Prod.fst this, congrArg Prod.snd this⟩
  rw [← ha, ← hf]
  simp

theorem dry_extends_refl (s : ScanState) : dry_extends s s :=
  ⟨rfl, [], by simp⟩

theorem dry_extends_trans {s1 s2 s3 : ScanState}
    (h1 : dry_extends s1 s2) (h2 : dry_extends s2 s3) : dry_extends s1 s3 := by
  obtain ⟨hf1, n1, ha1, hn1⟩ := h1
  obtain ⟨hf2, n2, ha2, hn2⟩ := h2
  refine ⟨hf2.trans hf1, n1 ++ n2, ?_, ?_⟩
  · rw [ha2, ha1, List.append_assoc]
  · intro a ha
    rcases List.mem_append.mp ha with h | h
    · exact hn1 a h
    · exact hn2 a h

theorem process_candidate_dry (output_dir source_pdf : String) (total_pages : ℤ)
    (overwrite : Bool) (s : ScanState) (c : ClassificationResult) (s1 : ScanState)
    (h : process_candidate output_dir source_pdf total_pages overwrite true s c = .ok s1) :
    dry_extends s s1 := by
  unfold process_candidate at h
  by_cases hov : (pageRange c.page_start c.page_end ∩ s.processed).Nonempty
  · rw [if_pos hov] at h
    cases h
    exact dry_extends_refl s
  · rw [if_neg hov] at h
    cases horg : organize_document s.fs output_dir total_pages source_pdf c.page_start c.page_end
        c.document_type overwrite true c.suggested_filename with
    | error e => rw [horg] at h; cases h
    | ok p =>
      obtain ⟨art, fs1⟩ := p
      rw [horg] at h
      cases h
      obtain ⟨hfs, hout⟩ := organize_document_dry _ _ _ _ _ _ _ _ _ _ _ horg
      exact ⟨hfs, [art], rfl, by simpa using hout⟩

theorem process_candidates_dry (output_dir source_pdf : String) (total_pages : ℤ)
    (overwrite : Bool) : ∀ (cs : List ClassificationResult) (s s1 : ScanState),
    process_candidates output_dir source_pdf total_pages overwrite true s cs = .ok s1 →
    dry_extends s s1 := by
  intro cs
  induction cs with
  | nil =>
    intro s s1 h
    rw [process_candidates] at h
    cases h
    exact dry_extends_refl _
  | cons c cs ih =>
    intro s s1 h
    rw [process_candidates] at h
    cases hpc : process_candidate output_dir source_pdf total_pages overwrite true s c with
    | error e => rw [hpc] at h; cases h
    | ok s2 =>
      rw [hpc] at h
      exact dry_extends_trans (process_candidate_dry _ _ _ _ _ _ _ hpc) (ih s2 s1 h)

theorem step_window_dry (classify : Classifier) (output_dir source_pdf : String)
    (total_pages window_size : ℤ) (overwrite : Bool) (s s1 : ScanState)
    (h : step_window classify output_dir source_pdf total_pages window_size overwrite true s =
      .ok s1) : dry_extends s s1 := by
  unfold step_window at h
  by_cases h1 : s.current_page < 1
  · rw [if_pos h1] at h; cases h
  rw [if_neg h1] at h
  simp only [] at h
  by_cases h2 : (classify s.current_page (min (s.current_page + window_size - 1) total_pages)).isEmpty
  · rw [if_pos h2] at h
    cases h
    exact ⟨rfl, [], by simp⟩
  · rw [if_neg h2] at h
    cases hpc : process_candidates output_dir source_pdf total_pages overwrite true s
        (sortClassifications (classify s.current_page
          (min (s.current_page + window_size - 1) total_pages))) with
    | error e => rw [hpc] at h; cases h
    | ok s2 =>
      rw [hpc] at h
      cases h
      obtain ⟨hfs, new, ha, hn⟩ := process_candidates_dry _ _ _ _ _ _ _ hpc
      exact ⟨hfs, new, ha, hn⟩

theorem scan_loop_dry (classify : Classifier) (output_dir source_pdf : String)
    (total_pages window_size : ℤ) (overwrite : Bool) :
    ∀ (fuel : ℕ) (s s1 : ScanState),
    scan_loop classify output_dir source_pdf total_pages window_size overwrite true fuel s =
      .done s1 → dry_extends s s1 := by
  intro fuel
  induction fuel with
  | zero => intro s s1 h; rw [scan_loop] at h; cases h
  | succ fuel ih =>
    intro s s1 h
    rw [scan_loop] at h
    by_cases hc : s.current_page ≤ total_pages
    · rw [if_pos hc] at h
      cases hsw : step_window classify output_dir source_pdf total_pages window_size
          overwrite true s with
      | error e => rw [hsw] at h; cases h
      | ok s2 =>
        rw [hsw] at h
        exact dry_extends_trans (step_window_dry _ _ _ _ _ _ _ _ hsw) (ih s2 s1 h)
    · rw [if_neg hc] at h
      cases h
      exact dry_extends_refl _

theorem finalize_unprocessed_dry (output_dir source_pdf : String) (total_pages : ℤ)
    (overwrite : Bool) : ∀ (gs : List (List ℤ)) (s s1 : ScanState),
    finalize_unprocessed output_dir source_pdf total_pages overwrite true gs s = .ok s1 →
    dry_extends s s1 := by
  intro gs
  induction gs with
  | nil =>
    intro s s1 h
    rw [finalize_unprocessed] at h
    cases h
    exact dry_extends_refl _
  | cons g gs ih =>
    intro s s1 h
    rw [finalize_unprocessed] at h
    cases horg : organize_document s.fs output_dir total_pages source_pdf (g.headD 0)
        (g.getLastD 0) "Unorganized" overwrite true (some (unorganized_name g)) with
    | error e => rw [horg] at h; cases h
    | ok p =>
      obtain ⟨art, fs1⟩ := p
      rw [horg] at h
      obtain ⟨hfs, hout⟩ := organize_document_dry _ _ _ _ _ _ _ _ _ _ _ horg
      have hmid : dry_extends s { s with artifacts := s.artifacts ++ [art], fs := fs1 } :=
        ⟨hfs, [art], rfl, by simpa using hout⟩
      exact dry_extends_trans hmid (ih _ s1 h)

theorem process_pdf_dry (classify : Classifier) (output_dir source_pdf : String)
    (total_pages window_size : ℤ) (overwrite : Bool) (fuel : ℕ)
    (artifacts0 : List DocumentMetadata) (unprocessed0 : List (String × List ℤ))
    (fs0 : List String) (s1 : ScanState)
    (h : process_pdf classify output_dir source_pdf total_pages window_size overwrite true fuel
      artifacts0 unprocessed0 fs0 = .done s1) :
    s1.fs = fs0 ∧ ∃ new, s1.artifacts = artifacts0 ++ new ∧ ∀ a ∈ new, a.output_path = none := by
  unfold process_pdf at h
  cases hs : scan_loop classify output_dir source_pdf total_pages window_size overwrite true fuel
      ⟨1, ∅, artifacts0, unprocessed0, fs0⟩ with
  | timeout s => rw [hs] at h; cases h
  | fail e => rw [hs] at h; cases h
  | done s =>
    rw [hs] at h
    dsimp only [] at h
    have hd1 := scan_loop_dry _ _ _ _ _ _ _ _ _ hs
    by_cases hup : (unprocessed_list total_pages s.processed).isEmpty
    · rw [if_pos hup] at h
      cases h
      exact hd1
    · rw [if_neg hup] at h
      cases hfin : finalize_unprocessed output_dir source_pdf total_pages overwrite true
          (group_runs (unprocessed_list total_pages s.processed))
          { s with unprocessed := s.unprocessed ++ [(source_pdf,
              unprocessed_list total_pages s.processed)] } with
      | error e => rw [hfin] at h; cases h
      | ok s2 =>
        rw [hfin] at h
        cases h
        have hd2 := finalize_unprocessed_dry _ _ _ _ _ _ _ hfin
        have hd3 : dry_extends (⟨1, ∅, artifacts0, unprocessed0, fs0⟩ : ScanState)
            { s with unprocessed := s.unprocessed ++ [(source_pdf,
              unprocessed_list total_pages s.processed)] } := by
          obtain ⟨hf, new, ha, hn⟩ := hd1
          exact ⟨hf, new, ha, hn⟩
        exact dry_extends_trans hd3 hd2

theorem process_docs_dry (output_dir : String) (window_size : ℤ) (overwrite : Bool)
    (fuel : ℕ) : ∀ (docs : List SourceDoc) (s s1 : ScanState),
    process_docs output_dir window_size overwrite true fuel docs s = .done s1 →
    dry_extends s s1 := by
  intro docs
  induction docs with
  | nil =>
    intro s s1 h
    rw [process_docs] at h
    cases h
    exact dry_extends_refl _
  | cons d ds ih =>
    intro s s1 h
    rw [process_docs] at h
    cases hp : process_pdf d.classify output_dir d.path d.total_pages window_size overwrite true
        fuel s.artifacts s.unprocessed s.fs with
    | fail e => rw [hp] at h; cases h
    | timeout s2 => rw [hp] at h; cases h
    | done s2 =>
      rw [hp] at h
      obtain ⟨hf, new, ha, hn⟩ := process_pdf_dry _ _ _ _ _ _ _ _ _ _ _ hp
      exact dry_extends_trans ⟨hf, new, ha, hn⟩ (ih s2 s1 h)

/-- C6: a directory run with dry-run enabled that completes performs no
filesystem write (no output PDF and no metadata sidecar: the filesystem is
returned unchanged), while the artifact records are still accumulated in
memory, every one of them with output_path = none. -/
theorem process_directory_dry_run_purity (docs : List SourceDoc) (output_dir : String)
    (window_size : ℤ) (overwrite : Bool) (fuel : ℕ) (artifacts0 : List DocumentMetadata)
    (unprocessed0 : List (String × List ℤ)) (fs0 : List String) (s1 : ScanState)
    (h : process_directory docs output_dir window_size overwrite true fuel artifacts0
      unprocessed0 fs0 = .done s1) :
    s1.fs = fs0 ∧ ∃ new, s1.artifacts = artifacts0 ++ new ∧ ∀ a ∈ new, a.output_path = none := by
  unfold process_directory at h
  cases hp : process_docs output_dir window_size overwrite true fuel docs
      ⟨1, ∅, artifacts0, unprocessed0, fs0⟩ with
  | fail e => rw [hp] at h; cases h
  | timeout s => rw [hp] at h; cases h
  | done s =>
    rw [hp] at h
    simp only [if_true] at h
    cases h
    exact process_docs_dry _ _ _ _ _ _ _ hp

theorem ranges_append (l1 l2 : List DocumentMetadata) :
    ranges (l1 ++ l2) = ranges l1 ++ ranges l2 := by
  simp [ranges]

theorem covered_append (l1 l2 : List DocumentMetadata) :
    covered (l1 ++ l2) = covered l1 ∪ covered l2 := by
  unfold covered
  rw [ranges_append]
  induction ranges l1 with
  | nil => simp
  | cons r rs ih => simp [ih, Finset.union_assoc]

theorem covered_singleton (a : DocumentMetadata) :
    covered [a] = pageRange a.start_page a.end_page := by
  simp [covered, ranges]

theorem mem_covered {l : List DocumentMetadata} {p : ℤ} :
    p ∈ covered l ↔ ∃ r ∈ ranges l, p ∈ r := by
  unfold covered
  induction ranges l with
  | nil => simp
  | cons r rs ih => simp [ih]

theorem organize_document_ok {fs : List String} {output_dir : String} {total_pages : ℤ}
    {source_pdf : String} {start_page end_page : ℤ} {document_type : String}
    {overwrite dry_run : Bool} {suggested_filename : Option String}
    {art : DocumentMetadata} {fs1 : List String}
    (h : organize_document fs output_dir total_pages source_pdf start_page end_page
      document_type overwrite dry_run suggested_filename = .ok (art, fs1)) :
    art.source_pdf = source_pdf ∧ art.start_page = start_page ∧ art.end_page = end_page ∧
    art.document_type = document_type ∧ art.confidence = 1 ∧
    1 ≤ start_page ∧ start_page ≤ end_page ∧ end_page ≤ total_pages := by
  unfold organize_document at h
  by_cases h1 : start_page < 1
  · rw [if_pos h1] at h; cases h
  rw [if_neg h1] at h
  by_cases h2 : end_page > total_pages
  · rw [if_pos h2] at h; cases h
  rw [if_neg h2] at h
  by_cases h3 : start_page > end_page
  · rw [if_pos h3] at h; cases h
  rw [if_neg h3] at h
  by_cases hd : dry_run
  · rw [if_pos hd] at h
    have := Except.ok.inj h
    have ha := congrArg Prod.fst this
    simp at ha
    rw [← ha]
    refine ⟨rfl, rfl, rfl, rfl, rfl, by omega, by omega, by omega⟩
  · rw [if_neg hd] at h
    simp only [] at h
    cases hres : resolve_name fs (output_dir ++ "/" ++ document_type)
        (suggested_filename.getD (default_filename source_pdf start_page end_page))
        (fs.length + 1) 0 with
    | none => rw [hres] at h; cases h
    | some name =>
      rw [hres] at h
      have := Except.ok.inj h
      have ha := congrArg Prod.fst this
      simp at ha
      rw [← ha]
      refine ⟨rfl, rfl, rfl, rfl, rfl, by omega, by omega, by omega⟩

theorem process_candidate_inv {output_dir source_pdf : String} {total_pages : ℤ}
    {overwrite dry_run : Bool} {s : ScanState} {c : ClassificationResult} {s1 : ScanState}
    {artifacts0 : List DocumentMetadata} {fs0 : List String}
    (hinv : scan_inv total_pages artifacts0 fs0 s)
    (h : process_candidate output_dir source_pdf total_pages overwrite dry_run s c = .ok s1) :
    scan_inv total_pages artifacts0 fs0 s1 ∧ s1.current_page = s.current_page ∧
    s1.unprocessed = s.unprocessed ∧ s.processed ⊆ s1.processed := by
  unfold process_candidate at h
  by_cases hov : (pageRange c.page_start c.page_end ∩ s.processed).Nonempty
  · rw [if_pos hov] at h
    cases h
    exact ⟨hinv, rfl, rfl, le_refl _⟩
  · rw [if_neg hov] at h
    cases horg : organize_document s.fs output_dir total_pages source_pdf c.page_start c.page_end
        c.document_type overwrite dry_run c.suggested_filename with
    | error e => rw [horg] at h; cases h
    | ok p =>
      obtain ⟨art, fs1⟩ := p
      rw [horg] at h
      cases h
      obtain ⟨hsrc, hsp, hep, hdt, hcf, hb1, hb2, hb3⟩ := organize_document_ok horg
      obtain ⟨new, ha, hc, hp, hb, hfs⟩ := hinv
      have hdisj : Disjoint (pageRange c.page_start c.page_end) s.processed := by
        rw [Finset.disjoint_left]
        intro x hx hx2
        exact hov ⟨x, Finset.mem_inter.mpr ⟨hx, hx2⟩⟩
      refine ⟨⟨new ++ [art], ?_, ?_, ?_, ?_, ?_⟩, rfl, rfl, ?_⟩
      · simp [ha]
      · rw [covered_append, covered_singleton, hc, hsp, hep]
      · rw [ranges_append, List.pairwise_append]
        refine ⟨hp, by simp [ranges], ?_⟩
        intro A hA B hB
        simp [ranges] at hB
        rw [hB]
        have hsub : A ⊆ s.processed := by
          intro x hx
          rw [← hc]
          exact mem_covered.mpr ⟨A, hA, hx⟩
        rw [hsp, hep]
        exact Finset.disjoint_of_subset_left hsub hdisj.symm
      · intro a haa
        rcases List.mem_append.mp haa with hmem | hmem
        · exact hb a hmem
        · simp at hmem
          rw [hmem, hsp, hep]
          exact ⟨hb1, hb2, hb3⟩
      · intro p
        rw [organize_document_fs_mem horg p, hfs p]
        constructor
        · rintro ((h2 | ⟨a, ha2, ha3⟩) | h2)
          · exact Or.inl h2
          · exact Or.inr ⟨a, by simp [ha2], ha3⟩
          · exact Or.inr ⟨art, by simp, h2⟩
        · rintro (h2 | ⟨a, ha2, ha3⟩)
          · exact Or.inl (Or.inl h2)
          · rcases List.mem_append.mp ha2 with h3 | h3
            · exact Or.inl (Or.inr ⟨a, h3, ha3⟩)
            · simp at h3
              rw [← h3]
              exact Or.inr ha3
      · exact Finset.subset_union_left

theorem process_candidates_inv {output_dir source_pdf : String} {total_pages : ℤ}
    {overwrite dry_run : Bool} {artifacts0 : List DocumentMetadata} {fs0 : List String} :
    ∀ {cs : List ClassificationResult} {s s1 : ScanState},
    scan_inv total_pages artifacts0 fs0 s →
    process_candidates output_dir source_pdf total_pages overwrite dry_run s cs = .ok s1 →
    scan_inv total_pages artifacts0 fs0 s1 ∧ s1.current_page = s.current_page ∧
    s1.unprocessed = s.unprocessed ∧ s.processed ⊆ s1.processed := by
  intro cs
  induction cs with
  | nil =>
    intro s s1 hinv h
    rw [process_candidates] at h
    cases h
    exact ⟨hinv, rfl, rfl, le_refl _⟩
  | cons c cs ih =>
    intro s s1 hinv h
    rw [process_candidates] at h
    cases hpc : process_candidate output_dir source_pdf total_pages overwrite dry_run s c with
    | error e => rw [hpc] at h; cases h
    | ok s2 =>
      rw [hpc] at h
      obtain ⟨hinv2, hcp2, hup2, hsub2⟩ := process_candidate_inv hinv hpc
      obtain ⟨hinv3, hcp3, hup3, hsub3⟩ := ih hinv2 h
      exact ⟨hinv3, hcp3.trans hcp2, hup3.trans hup2, hsub2.trans hsub3⟩

theorem step_window_inv {classify : Classifier} {output_dir source_pdf : String}
    {total_pages window_size : ℤ} {overwrite dry_run : Bool} {s s1 : ScanState}
    {artifacts0 : List DocumentMetadata} {fs0 : List String}
    (hinv : scan_inv total_pages artifacts0 fs0 s)
    (h : step_window classify output_dir source_pdf total_pages window_size overwrite dry_run s =
      .ok s1) : scan_inv total_pages artifacts0 fs0 s1 ∧ s1.unprocessed = s.unprocessed := by
  unfold step_window at h
  by_cases h1 : s.current_page < 1
  · rw [if_pos h1] at h; cases h
  rw [if_neg h1] at h
  simp only [] at h
  by_cases h2 : (classify s.current_page (min (s.current_page + window_size - 1) total_pages)).isEmpty
  · rw [if_pos h2] at h
    cases h
    obtain ⟨new, ha, hc, hp, hb, hfs⟩ := hinv
    exact ⟨⟨new, ha, hc, hp, hb, hfs⟩, rfl⟩
  · rw [if_neg h2] at h
    cases hpc : process_candidates output_dir source_pdf total_pages overwrite dry_run s
        (sortClassifications (classify s.current_page
          (min (s.current_page + window_size - 1) total_pages))) with
    | error e => rw [hpc] at h; cases h
    | ok s2 =>
      rw [hpc] at h
      cases h
      obtain ⟨hinv2, _, hup2, _⟩ := process_candidates_inv hinv hpc
      obtain ⟨new, ha, hc, hp, hb, hfs⟩ := hinv2
      exact ⟨⟨new, ha, hc, hp, hb, hfs⟩, hup2⟩

theorem scan_loop_inv {classify : Classifier} {output_dir source_pdf : String}
    {total_pages window_size : ℤ} {overwrite dry_run : Bool}
    {artifacts0 : List DocumentMetadata} {fs0 : List String} :
    ∀ {fuel : ℕ} {s s1 : ScanState},
    scan_inv total_pages artifacts0 fs0 s →
    scan_loop classify output_dir source_pdf total_pages window_size overwrite dry_run fuel s =
      .done s1 → scan_inv total_pages artifacts0 fs0 s1 ∧ s1.unprocessed = s.unprocessed := by
  intro fuel
  induction fuel with
  | zero => intro s s1 _ h; rw [scan_loop] at h; cases h
  | succ fuel ih =>
    intro s s1 hinv h
    rw [scan_loop] at h
    by_cases hc : s.current_page ≤ total_pages
    · rw [if_pos hc] at h
      cases hsw : step_window classify output_dir source_pdf total_pages window_size
          overwrite dry_run s with
      | error e => rw [hsw] at h; cases h
      | ok s2 =>
        rw [hsw] at h
        obtain ⟨hinv2, hup2⟩ := step_window_inv hinv hsw
        obtain ⟨hinv3, hup3⟩ := ih hinv2 h
        exact ⟨hinv3, hup3.trans hup2⟩
    · rw [if_neg hc] at h
      cases h
      exact ⟨hinv, rfl⟩

theorem mem_unprocessed_list {total_pages : ℤ} {processed : Finset ℤ} {p : ℤ} :
    p ∈ unprocessed_list total_pages processed ↔
      1 ≤ p ∧ p ≤ total_pages ∧ p ∉ processed := by
  unfold unprocessed_list
  simp only [List.mem_filter, List.mem_map, List.mem_range, decide_eq_true_eq]
  constructor
  · rintro ⟨⟨i, hi, rfl⟩, hp⟩
    refine ⟨by omega, by omega, hp⟩
  · rintro ⟨h1, h2, h3⟩
    exact ⟨⟨(p - 1).toNat, by omega, by omega⟩, h3⟩

theorem unprocessed_list_pairwise (total_pages : ℤ) (processed : Finset ℤ) :
    List.Pairwise (· < ·) (unprocessed_list total_pages processed) := by
  unfold unprocessed_list
  refine List.Pairwise.filter _ ?_
  rw [List.pairwise_map]
  refine (List.pairwise_lt_range _).imp ?_
  intro a b hab
  omega

theorem unprocessed_list_nodup (total_pages : ℤ) (processed : Finset ℤ) :
    (unprocessed_list total_pages processed).Nodup :=
  (unprocessed_list_pairwise total_pages processed).imp (fun h => ne_of_lt h)

theorem group_runs_go_flatten : ∀ (ps : List ℤ) (cur : List ℤ) (lastPage : ℤ),
    (group_runs_go cur lastPage ps).flatten = cur ++ ps := by
  intro ps
  induction ps with
  | nil => intro cur lastPage; simp [group_runs_go]
  | cons p ps ih =>
    intro cur lastPage
    rw [group_runs_go]
    by_cases hp : p = lastPage + 1
    · rw [if_pos hp, ih]
      simp
    · rw [if_neg hp]
      simp [ih]

theorem group_runs_flatten (l : List ℤ) : (group_runs l).flatten = l := by
  cases l with
  | nil => simp [group_runs]
  | cons p ps => rw [group_runs, group_runs_go_flatten]; simp

theorem group_runs_go_spec :
    ∀ (ps : List ℤ) (cur : List ℤ) (lastPage : ℤ) (L : List ℤ),
    cur ≠ [] →
    List.Chain' (fun a b => b = a + 1) cur →
    cur.getLast? = some lastPage →
    (∀ x ∈ cur, x ∈ L) →
    (∀ x ∈ ps, x ∈ L) →
    List.Pairwise (· < ·) ps →
    (∀ x ∈ ps, lastPage < x) →
    (cur.headD 0 - 1 ∉ L) →
    (∀ x ∈ cur, x ≤ lastPage) →
    (∀ x ∈ L, x ≤ lastPage ∨ x ∈ ps) →
    ∀ g ∈ group_runs_go cur lastPage ps,
      g ≠ [] ∧ List.Chain' (fun a b => b = a + 1) g ∧ (∀ x ∈ g, x ∈ L) ∧
      g.headD 0 - 1 ∉ L ∧ g.getLastD 0 + 1 ∉ L := by
  intro ps
  induction ps with
  | nil =>
    intro cur lastPage L hne hch hlast hcurL hpsL hpair hgt hhead hle hall g hg
    rw [group_runs_go] at hg
    simp at hg
    subst hg
    refine ⟨hne, hch, hcurL, hhead, ?_⟩
    have hLD : g.getLastD 0 = lastPage := by
      rw [List.getLastD_eq_getLast?, hlast]
      rfl
    rw [hLD]
    intro hcon
    rcases hall _ hcon with h | h
    · omega
    · simp at h
  | cons p ps ih =>
    intro cur lastPage L hne hch hlast hcurL hpsL hpair hgt hhead hle hall g hg
    rw [group_runs_go] at hg
    by_cases hp : p = lastPage + 1
    · rw [if_pos hp] at hg
      refine ih (cur ++ [p]) p L (by simp) ?_ (by simp) ?_ ?_ ?_ ?_ ?_ ?_ ?_ g hg
      · rw [List.chain'_append]
        refine ⟨hch, List.chain'_singleton p, ?_⟩
        intro x hx y hy
        rw [hlast] at hx
        simp at hx hy
        omega
      · intro x hx
        rcases List.mem_append.mp hx with h | h
        · exact hcurL x h
        · simp at h
          subst h
          exact hpsL x (by simp)
      · intro x hx
        exact hpsL x (by simp [hx])
      · exact hpair.sublist (List.sublist_cons_self p ps)
      · intro x hx
        exact List.rel_of_pairwise_cons hpair hx
      · intro hcon
        have heq : (cur ++ [p]).headD 0 = cur.headD 0 := by
          cases cur with
          | nil => exact absurd rfl hne
          | cons a l => simp
        rw [heq] at hcon
        exact hhead hcon
      · intro x hx
        rcases List.mem_append.mp hx with h | h
        · have := hle x h
          omega
        · simp at h
          omega
      · intro x hx
        rcases hall x hx with h | h
        · left; omega
        · rcases List.mem_cons.mp h with h2 | h2
          · left; omega
          · right; exact h2
    · rw [if_neg hp] at hg
      rcases List.mem_cons.mp hg with hg1 | hg2
      · subst hg1
        refine ⟨hne, hch, hcurL, hhead, ?_⟩
        have hLD : g.getLastD 0 = lastPage := by
          rw [List.getLastD_eq_getLast?, hlast]
          rfl
        rw [hLD]
        intro hcon
        rcases hall _ hcon with h | h
        · omega
        · rcases List.mem_cons.mp h with h2 | h2
          · exact hp h2.symm
          · have h3 := List.rel_of_pairwise_cons hpair h2
            have h4 := hgt p (by simp)
            omega
      · refine ih [p] p L (by simp) (List.chain'_singleton p) rfl ?_ ?_ ?_ ?_ ?_ ?_ ?_ g hg2
        · intro x hx
          simp at hx
          subst hx
          exact hpsL x (by simp)
        · intro x hx
          exact hpsL x (by simp [hx])
        · exact hpair.sublist (List.sublist_cons_self p ps)
        · intro x hx
          exact List.rel_of_pairwise_cons hpair hx
        · simp only [List.headD_cons]
          intro hcon
          rcases hall _ hcon with h | h
          · have := hgt p (by simp)
            omega
          · rcases List.mem_cons.mp h with h2 | h2
            · omega
            · have h3 := List.rel_of_pairwise_cons hpair h2
              omega
        · intro x hx
          simp at hx
          omega
        · intro x hx
          rcases hall x hx with h | h
          · have := hgt p (by simp)
            left
            omega
          · rcases List.mem_cons.mp h with h2 | h2
            · left; omega
            · right; exact h2

theorem group_runs_spec (l : List ℤ) (hl : List.Pairwise (· < ·) l) :
    ∀ g ∈ group_runs l, g ≠ [] ∧ List.Chain' (fun a b => b = a + 1) g ∧
      (∀ x ∈ g, x ∈ l) ∧ g.headD 0 - 1 ∉ l ∧ g.getLastD 0 + 1 ∉ l := by
  cases l with
  | nil => intro g hg; rw [group_runs] at hg; cases hg
  | cons p ps =>
    rw [group_runs]
    refine group_runs_go_spec ps [p] p (p :: ps) (by simp) (List.chain'_singleton p) rfl
      (by intro x hx; simp at hx; simp [hx]) (by intro x hx; simp [hx])
      (hl.sublist (List.sublist_cons_self p ps))
      (fun x hx => List.rel_of_pairwise_cons hl hx) ?_ (by intro x hx; simp at hx; omega) ?_
    · simp only [List.headD_cons]
      intro hcon
      rcases List.mem_cons.mp hcon with h | h
      · omega
      · have := List.rel_of_pairwise_cons hl h
        omega
    · intro x hx
      rcases List.mem_cons.mp hx with h | h
      · left; omega
      · right; exact h

theorem chain_run_mem : ∀ (g : List ℤ), g ≠ [] →
    List.Chain' (fun a b => b = a + 1) g →
    g.headD 0 ≤ g.getLastD 0 ∧ ∀ x, (x ∈ g ↔ g.headD 0 ≤ x ∧ x ≤ g.getLastD 0) := by
  intro g
  induction g with
  | nil => intro h; exact absurd rfl h
  | cons a t ih =>
    intro _ hch
    cases t with
    | nil =>
      refine ⟨by simp, ?_⟩
      intro x
      simp
      omega
    | cons b t2 =>
      have hab : b = a + 1 := (List.chain'_cons.mp hch).1
      have hcht : List.Chain' (fun a b => b = a + 1) (b :: t2) := (List.chain'_cons.mp hch).2
      obtain ⟨hle, hmem⟩ := ih (by simp) hcht
      have hld : (a :: b :: t2).getLastD 0 = (b :: t2).getLastD 0 := by
        simp [List.getLastD_eq_getLast?, List.getLast?_cons_cons]
      simp only [List.headD_cons] at hle hmem ⊢
      rw [hld]
      constructor
      · omega
      · intro x
        rw [List.mem_cons, hmem x]
        omega

theorem flatten_nodup_disjoint : ∀ (gs : List (List ℤ)), gs.flatten.Nodup →
    List.Pairwise (fun g1 g2 => ∀ x, x ∈ g1 → x ∉ g2) gs := by
  intro gs
  induction gs with
  | nil => intro _; exact List.Pairwise.nil
  | cons g rest ih =>
    intro h
    rw [List.flatten_cons, List.nodup_append] at h
    obtain ⟨h1, h2, h3⟩ := h
    refine List.Pairwise.cons ?_ (ih h2)
    intro g2 hg2 x hx
    intro hx2
    exact h3 hx (List.mem_flatten.mpr ⟨g2, hg2, hx2⟩)

theorem finalize_unprocessed_spec {output_dir source_pdf : String} {total_pages : ℤ}
    {overwrite dry_run : Bool} : ∀ {gs : List (List ℤ)} {s s1 : ScanState},
    finalize_unprocessed output_dir source_pdf total_pages overwrite dry_run gs s = .ok s1 →
    ∃ new2, s1.artifacts = s.artifacts ++ new2 ∧
      s1.processed = s.processed ∧ s1.unprocessed = s.unprocessed ∧
      ranges new2 = gs.map (fun g => pageRange (g.headD 0) (g.getLastD 0)) ∧
      ∀ a ∈ new2, a.document_type = "Unorganized" ∧ a.confidence = 1 ∧
        a.source_pdf = source_pdf := by
  intro gs
  induction gs with
  | nil =>
    intro s s1 h
    rw [finalize_unprocessed] at h
    cases h
    exact ⟨[], by simp, rfl, rfl, by simp [ranges], by simp⟩
  | cons g gs ih =>
    intro s s1 h
    rw [finalize_unprocessed] at h
    cases horg : organize_document s.fs output_dir total_pages source_pdf (g.headD 0)
        (g.getLastD 0) "Unorganized" overwrite dry_run (some (unorganized_name g)) with
    | error e => rw [horg] at h; cases h
    | ok p =>
      obtain ⟨art, fs1⟩ := p
      rw [horg] at h
      obtain ⟨hsrc, hsp, hep, hdt, hcf, _, _, _⟩ := organize_document_ok horg
      obtain ⟨new2, ha, hproc, hup, hr, hfields⟩ := ih h
      refine ⟨art :: new2, ?_, hproc, hup, ?_, ?_⟩
      · simp at ha
        simp [ha]
      · rw [show ranges (art :: new2) = pageRange art.start_page art.end_page :: ranges new2
          from rfl]
        rw [hr, hsp, hep, List.map_cons]
      · intro a haa
        rcases List.mem_cons.mp haa with h2 | h2
        · rw [h2, hdt, hcf, hsrc]
          exact ⟨rfl, rfl, rfl⟩
        · exact hfields a h2

theorem finalize_unprocessed_dry_exact {output_dir source_pdf : String} {total_pages : ℤ}
    {overwrite : Bool} : ∀ {gs : List (List ℤ)} {s s1 : ScanState},
    finalize_unprocessed output_dir source_pdf total_pages overwrite true gs s = .ok s1 →
    s1.artifacts = s.artifacts ++ gs.map (fun g =>
      ⟨source_pdf, g.headD 0, g.getLastD 0, "Unorganized", unorganized_name g, 1, none⟩) := by
  intro gs
  induction gs with
  | nil =>
    intro s s1 h
    rw [finalize_unprocessed] at h
    cases h
    simp
  | cons g gs ih =>
    intro s s1 h
    rw [finalize_unprocessed] at h
    cases horg : organize_document s.fs output_dir total_pages source_pdf (g.headD 0)
        (g.getLastD 0) "Unorganized" overwrite true (some (unorganized_name g)) with
    | error e => rw [horg] at h; cases h
    | ok p =>
      obtain ⟨art, fs1⟩ := p
      rw [horg] at h
      obtain ⟨hart, hfs⟩ := organize_document_dry_exact horg
      have := ih h
      simp at this
      rw [this, hart]
      simp

theorem covered_subset {new : List DocumentMetadata} {total_pages : ℤ}
    (hb : ∀ a ∈ new, 1 ≤ a.start_page ∧ a.start_page ≤ a.end_page ∧ a.end_page ≤ total_pages) :
    covered new ⊆ Finset.Icc 1 total_pages := by
  intro x hx
  obtain ⟨r, hr, hxr⟩ := mem_covered.mp hx
  simp only [ranges, List.mem_map] at hr
  obtain ⟨a, ha, rfl⟩ := hr
  obtain ⟨h1, h2, h3⟩ := hb a ha
  simp only [pageRange, Finset.mem_Icc] at hxr ⊢
  omega

theorem subset_covered {new : List DocumentMetadata} {r : Finset ℤ} (hr : r ∈ ranges new) :
    r ⊆ covered new := by
  intro x hx
  exact mem_covered.mpr ⟨r, hr, hx⟩

/-- C2: for every completed run of process_pdf over an N-page document, the
page ranges of the artifacts produced in that run (accepted spans plus
Unorganized groups) are pairwise disjoint and their union is exactly
the interval from 1 to N; and a candidate overlapping an already-claimed page
is skipped without an error, leaving the state unchanged. -/
theorem process_pdf_coverage (classify : Classifier) (output_dir source_pdf : String)
    (total_pages window_size : ℤ) (overwrite dry_run : Bool) (fuel : ℕ)
    (artifacts0 : List DocumentMetadata) (unprocessed0 : List (String × List ℤ))
    (fs0 : List String) (s1 : ScanState)
    (h : process_pdf classify output_dir source_pdf total_pages window_size overwrite dry_run
      fuel artifacts0 unprocessed0 fs0 = .done s1) :
    (∃ new, s1.artifacts = artifacts0 ++ new ∧
      covered new = Finset.Icc 1 total_pages ∧
      List.Pairwise (fun A B => Disjoint A B) (ranges new)) ∧
    ∀ (c : ClassificationResult) (s : ScanState),
      (pageRange c.page_start c.page_end ∩ s.processed).Nonempty →
      process_candidate output_dir source_pdf total_pages overwrite dry_run s c = .ok s := by
  refine ⟨?_, ?_⟩
  case refine_2 =>
    intro c s hov
    unfold process_candidate
    rw [if_pos hov]
  · unfold process_pdf at h
    cases hs : scan_loop classify output_dir source_pdf total_pages window_size overwrite dry_run
        fuel ⟨1, ∅, artifacts0, unprocessed0, fs0⟩ with
    | timeout s => rw [hs] at h; cases h
    | fail e => rw [hs] at h; cases h
    | done s =>
      rw [hs] at h
      dsimp only [] at h
      have hinv0 : scan_inv total_pages artifacts0 fs0 (⟨1, ∅, artifacts0, unprocessed0, fs0⟩ :
          ScanState) := ⟨[], by simp, by simp [covered, ranges], by simp [ranges], by simp,
            by simp⟩
      obtain ⟨⟨new1, ha1, hc1, hp1, hb1, hfs1⟩, -⟩ := scan_loop_inv hinv0 hs
      by_cases hup : (unprocessed_list total_pages s.processed).isEmpty
      · rw [if_pos hup] at h
        cases h
        refine ⟨new1, ha1, ?_, hp1⟩
        rw [hc1]
        apply Finset.Subset.antisymm
        · rw [← hc1]
          exact covered_subset hb1
        · intro x hx
          by_contra hxp
          have hmem : x ∈ unprocessed_list total_pages s1.processed := by
            rw [mem_unprocessed_list]
            simp only [Finset.mem_Icc] at hx
            exact ⟨hx.1, hx.2, hxp⟩
          rw [List.isEmpty_iff.mp hup] at hmem
          cases hmem
      · rw [if_neg hup] at h
        cases hfin : finalize_unprocessed output_dir source_pdf total_pages overwrite dry_run
            (group_runs (unprocessed_list total_pages s.processed))
            { s with unprocessed := s.unprocessed ++
                [(source_pdf, unprocessed_list total_pages s.processed)] } with
        | error e => rw [hfin] at h; cases h
        | ok s2 =>
          rw [hfin] at h
          cases h
          obtain ⟨new2, ha2, hproc2, hup2, hr2, hfields2⟩ := finalize_unprocessed_spec hfin
          have hgspec := group_runs_spec (unprocessed_list total_pages s.processed)
            (unprocessed_list_pairwise total_pages s.processed)
          have hmem2 : ∀ x, x ∈ covered new2 ↔
              (x ∈ Finset.Icc 1 total_pages ∧ x ∉ s.processed) := by
            intro x
            rw [mem_covered]
            constructor
            · rintro ⟨r, hr, hxr⟩
              rw [hr2] at hr
              simp only [List.mem_map] at hr
              obtain ⟨g, hg, rfl⟩ := hr
              obtain ⟨hne, hch, hsub, -, -⟩ := hgspec g hg
              obtain ⟨-, hiff⟩ := chain_run_mem g hne hch
              have hxg : x ∈ g := by
                rw [hiff x]
                simpa [pageRange] using hxr
              have hxup := hsub x hxg
              rw [mem_unprocessed_list] at hxup
              exact ⟨Finset.mem_Icc.mpr ⟨hxup.1, hxup.2.1⟩, hxup.2.2⟩
            · rintro ⟨hx1, hx2⟩
              have hxup : x ∈ unprocessed_list total_pages s.processed := by
                rw [mem_unprocessed_list]
                simp only [Finset.mem_Icc] at hx1
                exact ⟨hx1.1, hx1.2, hx2⟩
              rw [← group_runs_flatten (unprocessed_list total_pages s.processed),
                List.mem_flatten] at hxup
              obtain ⟨g, hg, hxg⟩ := hxup
              refine ⟨pageRange (g.headD 0) (g.getLastD 0), ?_, ?_⟩
              · rw [hr2]
                simp only [List.mem_map]
                exact ⟨g, hg, rfl⟩
              · obtain ⟨hne, hch, -, -, -⟩ := hgspec g hg
                obtain ⟨-, hiff⟩ := chain_run_mem g hne hch
                simpa [pageRange] using (hiff x).mp hxg
          refine ⟨new1 ++ new2, ?_, ?_, ?_⟩
          · rw [ha2]
            simp only []
            rw [ha1, List.append_assoc]
          · rw [covered_append, hc1]
            apply Finset.ext
            intro x
            simp only [Finset.mem_union, hmem2 x, Finset.mem_Icc]
            constructor
            · rintro (hx | ⟨hx1, -⟩)
              · have := covered_subset hb1 (hc1 ▸ hx)
                simpa using this
              · simpa using hx1
            · intro hx
              by_cases hxp : x ∈ s.processed
              · exact Or.inl hxp
              · exact Or.inr ⟨hx, hxp⟩
          · rw [ranges_append, List.pairwise_append]
            refine ⟨hp1, ?_, ?_⟩
            · rw [hr2]
              rw [List.pairwise_map]
              have hnodup : (group_runs (unprocessed_list total_pages s.processed)).flatten.Nodup := by
                rw [group_runs_flatten]
                exact unprocessed_list_nodup total_pages s.processed
              refine List.Pairwise.imp_of_mem ?_ (flatten_nodup_disjoint _ hnodup)
              intro g1 g2 hg1 hg2 hdis
              rw [Finset.disjoint_left]
              intro x hx1 hx2
              obtain ⟨hne1, hch1, -, -, -⟩ := hgspec g1 hg1
              obtain ⟨hne2, hch2, -, -, -⟩ := hgspec g2 hg2
              obtain ⟨-, hiff1⟩ := chain_run_mem g1 hne1 hch1
              obtain ⟨-, hiff2⟩ := chain_run_mem g2 hne2 hch2
              have hxg1 : x ∈ g1 := by
                rw [hiff1 x]
                simpa [pageRange] using hx1
              have hxg2 : x ∈ g2 := by
                rw [hiff2 x]
                simpa [pageRange] using hx2
              exact hdis x hxg1 hxg2
            · intro A hA B hB
              rw [Finset.disjoint_left]
              intro x hxA hxB
              have hxproc : x ∈ s.processed := by
                rw [← hc1]
                exact subset_covered hA hxA
              have hxcov2 : x ∈ covered new2 := subset_covered hB hxB
              rw [hmem2 x] at hxcov2
              exact hxcov2.2 hxproc

theorem nat_repr_no_dash (n : ℕ) : ('-' : Char) ∉ (Nat.repr n).data := by
  by_cases hn : n = 0
  · subst hn
    rw [show (Nat.repr 0).data = ['0'] from rfl]
    decide
  · rw [show (Nat.repr n).data = Nat.toDigits 10 n from rfl, toDigits_eq_digits n hn]
    intro hmem
    rw [List.mem_reverse, List.mem_map] at hmem
    obtain ⟨d, hd, hchar⟩ := hmem
    have hd10 : d < 10 := Nat.digits_lt_base (by norm_num) hd
    have : ∀ e < 10, Nat.digitChar e ≠ '-' := by decide
    exact this d hd10 hchar

theorem int_toString_pos (a : ℤ) (h : 0 < a) : toString a = Nat.repr a.toNat := by
  cases a with
  | ofNat m => rfl
  | negSucc m => exact absurd h (by exact Int.not_lt.mpr (le_of_lt (Int.negSucc_lt_zero m)))

theorem int_toString_no_dash (a : ℤ) (h : 0 < a) : ('-' : Char) ∉ (toString a).data := by
  rw [int_toString_pos a h]
  exact nat_repr_no_dash a.toNat

theorem int_toString_pos_inj (a b : ℤ) (ha : 0 < a) (hb : 0 < b)
    (h : toString a = toString b) : a = b := by
  rw [int_toString_pos a ha, int_toString_pos b hb] at h
  have := nat_repr_injective h
  omega

theorem append_cons_inj_of_not_mem (c : Char) :
    ∀ (l1 l2 r1 r2 : List Char), c ∉ l1 → c ∉ l2 →
    l1 ++ c :: r1 = l2 ++ c :: r2 → l1 = l2 ∧ r1 = r2 := by
  intro l1
  induction l1 with
  | nil =>
    intro l2 r1 r2 _ h2 h
    cases l2 with
    | nil =>
      simp at h
      exact ⟨rfl, h⟩
    | cons x l2 =>
      simp at h
      exact absurd (by rw [h.1]; simp : c ∈ x :: l2) h2
  | cons x l1 ih =>
    intro l2 r1 r2 h1 h2 h
    cases l2 with
    | nil =>
      simp at h
      exact absurd (by rw [← h.1]; simp : c ∈ x :: l1) h1
    | cons y l2 =>
      simp only [List.cons_append, List.cons.injEq] at h
      obtain ⟨hxy, htail⟩ := h
      obtain ⟨ha, hb⟩ := ih l2 r1 r2 (fun hc => h1 (by simp [hc]))
        (fun hc => h2 (by simp [hc])) htail
      exact ⟨by rw [hxy, ha], hb⟩

theorem unorganized_name_data (g : List ℤ) :
    (unorganized_name g).data = ("unorganized_pages_" : String).data ++
      ((toString (g.headD 0)).data ++ '-' ::
        ((toString (g.getLastD 0)).data ++ (".pdf" : String).data)) := by
  show (("unorganized_pages_" ++ toString (g.headD 0) ++ "-" ++ toString (g.getLastD 0) ++
    ".pdf") : String).data = _
  simp only [String.data_append, List.append_assoc]
  rfl

theorem unorganized_name_inj_pos (g1 g2 : List ℤ)
    (h1 : 0 < g1.headD 0) (h2 : 0 < g2.headD 0)
    (h3 : 0 < g1.getLastD 0) (h4 : 0 < g2.getLastD 0)
    (h : unorganized_name g1 = unorganized_name g2) :
    g1.headD 0 = g2.headD 0 ∧ g1.getLastD 0 = g2.getLastD 0 := by
  have hd := congrArg String.data h
  rw [unorganized_name_data, unorganized_name_data] at hd
  have hd2 := List.append_cancel_left hd
  obtain ⟨hh, ht⟩ := append_cons_inj_of_not_mem '-' _ _ _ _
    (int_toString_no_dash _ h1) (int_toString_no_dash _ h2) hd2
  have ht2 := List.append_cancel_right ht
  exact ⟨int_toString_pos_inj _ _ h1 h2 (String.ext hh),
    int_toString_pos_inj _ _ h3 h4 (String.ext ht2)⟩


theorem finalize_unprocessed_wet_exact {output_dir source_pdf : String} {total_pages : ℤ}
    {overwrite : Bool} : ∀ {gs : List (List ℤ)} {s s1 : ScanState},
    finalize_unprocessed output_dir source_pdf total_pages overwrite false gs s = .ok s1 →
    (∀ g ∈ gs, (output_dir ++ "/" ++ "Unorganized" ++ "/" ++ unorganized_name g) ∉ s.fs) →
    List.Pairwise (fun g1 g2 => unorganized_name g1 ≠ unorganized_name g2) gs →
    s1.artifacts = s.artifacts ++ gs.map (fun g =>
      ⟨source_pdf, g.headD 0, g.getLastD 0, "Unorganized", unorganized_name g, 1,
        some (output_dir ++ "/" ++ "Unorganized" ++ "/" ++ unorganized_name g)⟩) := by
  intro gs
  induction gs with
  | nil =>
    intro s s1 h _ _
    rw [finalize_unprocessed] at h
    cases h
    simp
  | cons g gs ih =>
    intro s s1 h hfree hdist
    rw [finalize_unprocessed] at h
    cases horg : organize_document s.fs output_dir total_pages source_pdf (g.headD 0)
        (g.getLastD 0) "Unorganized" overwrite false (some (unorganized_name g)) with
    | error e => rw [horg] at h; cases h
    | ok p =>
      obtain ⟨art, fs1⟩ := p
      rw [horg] at h
      obtain ⟨hart, hfs⟩ := organize_document_wet_free horg (hfree g (by simp))
      have hrec := ih h ?_ (hdist.sublist (List.sublist_cons_self g gs))
      · rw [hrec]
        simp only []
        rw [hart]
        simp
      · intro g2 hg2
        simp only [hfs]
        intro hmem
        rcases List.mem_cons.mp hmem with h2 | h2
        · have hne := List.rel_of_pairwise_cons hdist hg2
          have hd2 := congrArg String.data h2
          rw [String.data_append, String.data_append] at hd2
          exact hne (String.ext (List.append_cancel_left hd2)).symm
        · exact hfree g2 (by simp [hg2]) h2

/-- C4: after the scan loop of process_pdf completes, the pages never claimed
by an accepted span (within 1..N) are partitioned into maximal runs of
consecutive pages, and each run from first to last produces exactly one
artifact of type Unorganized with confidence 1 and filename
unorganized_pages_first-last.pdf (in a non-dry run, provided no file of that
name pre-exists or was produced by an accepted span). -/
theorem process_pdf_unclaimed_groups (classify : Classifier) (output_dir source_pdf : String)
    (total_pages window_size : ℤ) (overwrite dry_run : Bool) (fuel : ℕ)
    (artifacts0 : List DocumentMetadata) (unprocessed0 : List (String × List ℤ))
    (fs0 : List String) (s1 : ScanState)
    (h : process_pdf classify output_dir source_pdf total_pages window_size overwrite dry_run
      fuel artifacts0 unprocessed0 fs0 = .done s1) :
    ∃ scanArts up,
      (∀ p, p ∈ up ↔ 1 ≤ p ∧ p ≤ total_pages ∧ p ∉ covered scanArts) ∧
      List.Pairwise (· < ·) up ∧
      (group_runs up).flatten = up ∧
      (∀ g ∈ group_runs up, g ≠ [] ∧ List.Chain' (fun a b => b = a + 1) g ∧
        g.headD 0 - 1 ∉ up ∧ g.getLastD 0 + 1 ∉ up) ∧
      (dry_run = true →
        s1.artifacts = artifacts0 ++ scanArts ++ (group_runs up).map (fun g =>
          ⟨source_pdf, g.headD 0, g.getLastD 0, "Unorganized", unorganized_name g, 1,
            none⟩)) ∧
      (dry_run = false →
        (∀ g ∈ group_runs up,
          (output_dir ++ "/" ++ "Unorganized" ++ "/" ++ unorganized_name g) ∉ fs0 ∧
          ∀ a ∈ scanArts, a.output_path ≠
            some (output_dir ++ "/" ++ "Unorganized" ++ "/" ++ unorganized_name g)) →
        s1.artifacts = artifacts0 ++ scanArts ++ (group_runs up).map (fun g =>
          ⟨source_pdf, g.headD 0, g.getLastD 0, "Unorganized", unorganized_name g, 1,
            some (output_dir ++ "/" ++ "Unorganized" ++ "/" ++ unorganized_name g)⟩)) := by
  unfold process_pdf at h
  cases hs : scan_loop classify output_dir source_pdf total_pages window_size overwrite dry_run
      fuel ⟨1, ∅, artifacts0, unprocessed0, fs0⟩ with
  | timeout s => rw [hs] at h; cases h
  | fail e => rw [hs] at h; cases h
  | done s =>
    rw [hs] at h
    dsimp only [] at h
    have hinv0 : scan_inv total_pages artifacts0 fs0 (⟨1, ∅, artifacts0, unprocessed0, fs0⟩ :
        ScanState) := ⟨[], by simp, by simp [covered, ranges], by simp [ranges], by simp,
          by simp⟩
    obtain ⟨⟨new1, ha1, hc1, hp1, hb1, hfs1⟩, -⟩ := scan_loop_inv hinv0 hs
    by_cases hup : (unprocessed_list total_pages s.processed).isEmpty
    · rw [if_pos hup] at h
      cases h
      refine ⟨new1, unprocessed_list total_pages s1.processed, ?_, ?_, ?_, ?_, ?_, ?_⟩
      · intro p
        rw [mem_unprocessed_list, hc1]
      · exact unprocessed_list_pairwise _ _
      · exact group_runs_flatten _
      · intro g hg
        obtain ⟨h1, h2, -, h4, h5⟩ := group_runs_spec _ (unprocessed_list_pairwise _ _) g hg
        exact ⟨h1, h2, h4, h5⟩
      · intro _
        rw [List.isEmpty_iff.mp hup]
        rw [group_runs]
        simp [ha1]
      · intro _ _
        rw [List.isEmpty_iff.mp hup]
        rw [group_runs]
        simp [ha1]
    · rw [if_neg hup] at h
      cases hfin : finalize_unprocessed output_dir source_pdf total_pages overwrite dry_run
          (group_runs (unprocessed_list total_pages s.processed))
          { s with unprocessed := s.unprocessed ++
              [(source_pdf, unprocessed_list total_pages s.processed)] } with
      | error e => rw [hfin] at h; cases h
      | ok s2 =>
        rw [hfin] at h
        cases h
        have hpos : ∀ g ∈ group_runs (unprocessed_list total_pages s.processed),
            0 < g.headD 0 ∧ 0 < g.getLastD 0 := by
          intro g hg
          obtain ⟨hne, -, hsub, -, -⟩ :=
            group_runs_spec _ (unprocessed_list_pairwise total_pages s.processed) g hg
          constructor
          · cases g with
            | nil => exact absurd rfl hne
            | cons a t =>
              have ha := mem_unprocessed_list.mp (hsub a (by simp))
              simp only [List.headD_cons]
              omega
          · cases hgl : g.getLast? with
            | none => rw [List.getLast?_eq_none_iff] at hgl; exact absurd hgl hne
            | some a =>
              have ha := mem_unprocessed_list.mp (hsub a (List.mem_of_mem_getLast? hgl))
              rw [List.getLastD_eq_getLast?, hgl]
              simp only [Option.getD_some]
              omega
        refine ⟨new1, unprocessed_list total_pages s.processed, ?_, ?_, ?_, ?_, ?_, ?_⟩
        · intro p
          rw [mem_unprocessed_list, hc1]
        · exact unprocessed_list_pairwise _ _
        · exact group_runs_flatten _
        · intro g hg
          obtain ⟨h1, h2, -, h4, h5⟩ := group_runs_spec _ (unprocessed_list_pairwise _ _) g hg
          exact ⟨h1, h2, h4, h5⟩
        · intro hdry
          subst hdry
          have hart := finalize_unprocessed_dry_exact hfin
          rw [hart]
          simp only []
          rw [ha1, List.append_assoc]
        · intro hdry hcond
          subst hdry
          have hdist : List.Pairwise (fun g1 g2 => unorganized_name g1 ≠ unorganized_name g2)
              (group_runs (unprocessed_list total_pages s.processed)) := by
            have hnodup : (group_runs (unprocessed_list total_pages
                s.processed)).flatten.Nodup := by
              rw [group_runs_flatten]
              exact unprocessed_list_nodup total_pages s.processed
            refine List.Pairwise.imp_of_mem ?_ (flatten_nodup_disjoint _ hnodup)
            intro g1 g2 hg1 hg2 hdis hname
            obtain ⟨hp1g, hl1g⟩ := hpos g1 hg1
            obtain ⟨hp2g, hl2g⟩ := hpos g2 hg2
            obtain ⟨hhead, -⟩ := unorganized_name_inj_pos g1 g2 hp1g hp2g hl1g hl2g hname
            obtain ⟨hne1, -, -, -, -⟩ :=
              group_runs_spec _ (unprocessed_list_pairwise total_pages s.processed) g1 hg1
            obtain ⟨hne2, -, -, -, -⟩ :=
              group_runs_spec _ (unprocessed_list_pairwise total_pages s.processed) g2 hg2
            have hm1 : g1.headD 0 ∈ g1 := by
              cases g1 with
              | nil => exact absurd rfl hne1
              | cons a t => simp
            have hm2 : g2.headD 0 ∈ g2 := by
              cases g2 with
              | nil => exact absurd rfl hne2
              | cons a t => simp
            exact hdis _ hm1 (hhead ▸ hm2)
          have hfree : ∀ g ∈ group_runs (unprocessed_list total_pages s.processed),
              (output_dir ++ "/" ++ "Unorganized" ++ "/" ++ unorganized_name g) ∉
                (ScanState.fs { s with unprocessed := s.unprocessed ++
                  [(source_pdf, unprocessed_list total_pages s.processed)] }) := by
            intro g hg
            obtain ⟨hnotfs0, hnotart⟩ := hcond g hg
            intro hmem
            rcases (hfs1 _).mp hmem with h2 | ⟨a, ha2, ha3⟩
            · exact hnotfs0 h2
            · exact hnotart a ha2 ha3
          have hart := finalize_unprocessed_wet_exact hfin hfree hdist
          rw [hart]
          simp only []
          rw [ha1, List.append_assoc]

theorem process_candidate_current {output_dir source_pdf : String} {total_pages : ℤ}
    {overwrite dry_run : Bool} {s : ScanState} {c : ClassificationResult} {s1 : ScanState}
    (h : process_candidate output_dir source_pdf total_pages overwrite dry_run s c = .ok s1) :
    s1.current_page = s.current_page := by
  unfold process_candidate at h
  by_cases hov : (pageRange c.page_start c.page_end ∩ s.processed).Nonempty
  · rw [if_pos hov] at h
    cases h
    rfl
  · rw [if_neg hov] at h
    cases horg : organize_document s.fs output_dir total_pages source_pdf c.page_start c.page_end
        c.document_type overwrite dry_run c.suggested_filename with
    | error e => rw [horg] at h; cases h
    | ok p =>
      obtain ⟨art, fs1⟩ := p
      rw [horg] at h
      cases h
      rfl

theorem process_candidates_current {output_dir source_pdf : String} {total_pages : ℤ}
    {overwrite dry_run : Bool} : ∀ {cs : List ClassificationResult} {s s1 : ScanState},
    process_candidates output_dir source_pdf total_pages overwrite dry_run s cs = .ok s1 →
    s1.current_page = s.current_page := by
  intro cs
  induction cs with
  | nil =>
    intro s s1 h
    rw [process_candidates] at h
    cases h
    rfl
  | cons c cs ih =>
    intro s s1 h
    rw [process_candidates] at h
    cases hpc : process_candidate output_dir source_pdf total_pages overwrite dry_run s c with
    | error e => rw [hpc] at h; cases h
    | ok s2 =>
      rw [hpc] at h
      exact (ih h).trans (process_candidate_current hpc)

/-- C3 (amended): in every loop iteration, when the classifier returns no
candidates the next current_page is current_page + 1 (not window_end + 1);
when it returns candidates, the next current_page is max(processed_pages) + 1
whenever any page has ever been claimed (also when every candidate of this
iteration was rejected), and window_end + 1 only when no page at all has been
claimed. -/
theorem step_window_advance (classify : Classifier) (output_dir source_pdf : String)
    (total_pages window_size : ℤ) (overwrite dry_run : Bool) (s s1 : ScanState)
    (h : step_window classify output_dir source_pdf total_pages window_size overwrite dry_run s =
      .ok s1) :
    ((classify s.current_page (min (s.current_page + window_size - 1) total_pages)).isEmpty =
        true → s1.current_page = s.current_page + 1) ∧
    ((classify s.current_page (min (s.current_page + window_size - 1) total_pages)).isEmpty =
        false →
      s1.current_page = if h2 : s1.processed.Nonempty then s1.processed.max' h2 + 1
        else min (s.current_page + window_size - 1) total_pages + 1) := by
  unfold step_window at h
  by_cases h1 : s.current_page < 1
  · rw [if_pos h1] at h; cases h
  rw [if_neg h1] at h
  simp only [] at h
  by_cases h2 : (classify s.current_page (min (s.current_page + window_size - 1)
      total_pages)).isEmpty
  · rw [if_pos h2] at h
    cases h
    exact ⟨fun _ => rfl, fun hf => absurd h2 (by rw [hf]; simp)⟩
  · rw [if_neg h2] at h
    cases hpc : process_candidates output_dir source_pdf total_pages overwrite dry_run s
        (sortClassifications (classify s.current_page
          (min (s.current_page + window_size - 1) total_pages))) with
    | error e => rw [hpc] at h; cases h
    | ok s2 =>
      rw [hpc] at h
      cases h
      refine ⟨fun ht => absurd ht h2, fun _ => rfl⟩

/-- C3 counterexample: with a classifier returning no candidates and
window_size 2 on a 3-page document, the code advances the cursor to 2, while
the claim says the next current_page equals window_end + 1 = 3. -/
theorem step_window_empty_advance_counterexample :
    step_window empty_classifier "out" "doc.pdf" 3 2 false false ⟨1, ∅, [], [], []⟩ =
      .ok ⟨2, ∅, [], [], []⟩ ∧ (2 : ℤ) ≠ min (1 + 2 - 1) 3 + 1 :=
  ⟨by decide, by decide⟩

theorem scan_loop_fixpoint (classify : Classifier) (output_dir source_pdf : String)
    (total_pages window_size : ℤ) (overwrite dry_run : Bool) (s : ScanState)
    (hfix : step_window classify output_dir source_pdf total_pages window_size overwrite dry_run
      s = .ok s)
    (hle : s.current_page ≤ total_pages) :
    ∀ fuel : ℕ, (scan_loop classify output_dir source_pdf total_pages window_size overwrite
      dry_run fuel s).isDone = false := by
  intro fuel
  induction fuel with
  | zero => rw [scan_loop]; rfl
  | succ fuel ih =>
    rw [scan_loop, if_pos hle, hfix]
    exact ih

/-- C1: refuted on the code (code bug).  With a classifier that always returns
the span covering page 1, the scan of a 2-page document accepts it once and
then rejects it forever while current_page stays at max(processed_pages) + 1
= 2: the loop of process_pdf never finishes, whatever the fuel, so it neither
terminates nor stays within N window evaluations. -/
theorem scan_loop_nonterminating_on_overlap : ∀ fuel : ℕ,
    (scan_loop overlap_classifier "out" "doc.pdf" 2 10 false false fuel
      ⟨1, ∅, [], [], []⟩).isDone = false := by
  have hstep0 : step_window overlap_classifier "out" "doc.pdf" 2 10 false false
      ⟨1, ∅, [], [], []⟩ =
      .ok ⟨2, {1}, [⟨"doc.pdf", 1, 1, "Will", "doc_pages_1-1.pdf", 1,
        some "out/Will/doc_pages_1-1.pdf"⟩], [], ["out/Will/doc_pages_1-1.pdf"]⟩ := by decide
  have hfix : step_window overlap_classifier "out" "doc.pdf" 2 10 false false
      ⟨2, {1}, [⟨"doc.pdf", 1, 1, "Will", "doc_pages_1-1.pdf", 1,
        some "out/Will/doc_pages_1-1.pdf"⟩], [], ["out/Will/doc_pages_1-1.pdf"]⟩ =
      .ok ⟨2, {1}, [⟨"doc.pdf", 1, 1, "Will", "doc_pages_1-1.pdf", 1,
        some "out/Will/doc_pages_1-1.pdf"⟩], [], ["out/Will/doc_pages_1-1.pdf"]⟩ := by decide
  intro fuel
  cases fuel with
  | zero => rw [scan_loop]; rfl
  | succ fuel =>
    rw [scan_loop, if_pos (by decide), hstep0]
    exact scan_loop_fixpoint _ _ _ _ _ _ _ _ hfix (by decide) fuel

theorem process_pdf_unprocessed (classify : Classifier) (output_dir source_pdf : String)
    (total_pages window_size : ℤ) (overwrite dry_run : Bool) (fuel : ℕ)
    (artifacts0 : List DocumentMetadata) (unprocessed0 : List (String × List ℤ))
    (fs0 : List String) (s1 : ScanState)
    (h : process_pdf classify output_dir source_pdf total_pages window_size overwrite dry_run
      fuel artifacts0 unprocessed0 fs0 = .done s1) :
    ∃ tail, s1.unprocessed = unprocessed0 ++ tail ∧
      ∀ e ∈ tail, e.1 = source_pdf ∧ List.Pairwise (· < ·) e.2 := by
  unfold process_pdf at h
  cases hs : scan_loop classify output_dir source_pdf total_pages window_size overwrite dry_run
      fuel ⟨1, ∅, artifacts0, unprocessed0, fs0⟩ with
  | timeout s => rw [hs] at h; cases h
  | fail e => rw [hs] at h; cases h
  | done s =>
    rw [hs] at h
    dsimp only [] at h
    have hinv0 : scan_inv total_pages artifacts0 fs0 (⟨1, ∅, artifacts0, unprocessed0, fs0⟩ :
        ScanState) := ⟨[], by simp, by simp [covered, ranges], by simp [ranges], by simp,
          by simp⟩
    obtain ⟨-, hupeq⟩ := scan_loop_inv hinv0 hs
    by_cases hup : (unprocessed_list total_pages s.processed).isEmpty
    · rw [if_pos hup] at h
      cases h
      exact ⟨[], by simpa using hupeq, by simp⟩
    · rw [if_neg hup] at h
      cases hfin : finalize_unprocessed output_dir source_pdf total_pages overwrite dry_run
          (group_runs (unprocessed_list total_pages s.processed))
          { s with unprocessed := s.unprocessed ++
              [(source_pdf, unprocessed_list total_pages s.processed)] } with
      | error e => rw [hfin] at h; cases h
      | ok s2 =>
        rw [hfin] at h
        cases h
        obtain ⟨-, -, -, hup2, -, -⟩ := finalize_unprocessed_spec hfin
        refine ⟨[(source_pdf, unprocessed_list total_pages s.processed)], ?_, ?_⟩
        · rw [hup2]
          simp only []
          rw [hupeq]
        · intro e he
          simp at he
          rw [he]
          exact ⟨rfl, unprocessed_list_pairwise _ _⟩

/-- C8: the persisted sidecar record has exactly the two top-level fields
documents and unprocessed_pages; each document record carries exactly source,
start_page, end_page, type, filename, confidence and output_path in order;
and after any completed process_pdf run every recorded unprocessed-page list
is sorted ascending. -/
theorem save_metadata_shape_and_sorted (artifacts : List DocumentMetadata)
    (unprocessed : List (String × List ℤ)) (classify : Classifier)
    (output_dir source_pdf : String) (total_pages window_size : ℤ)
    (overwrite dry_run : Bool) (fuel : ℕ) (artifacts0 : List DocumentMetadata)
    (unprocessed0 : List (String × List ℤ)) (fs0 : List String) (s1 : ScanState)
    (h : process_pdf classify output_dir source_pdf total_pages window_size overwrite dry_run
      fuel artifacts0 unprocessed0 fs0 = .done s1)
    (h0 : ∀ e ∈ unprocessed0, List.Sorted (· ≤ ·) e.2) :
    (save_metadata artifacts unprocessed).keys = ["documents", "unprocessed_pages"] ∧
    (∀ d : DocumentMetadata, (artifact_record d).keys =
      ["source", "start_page", "end_page", "type", "filename", "confidence", "output_path"]) ∧
    (∀ e ∈ s1.unprocessed, List.Sorted (· ≤ ·) e.2) := by
  refine ⟨rfl, fun d => rfl, ?_⟩
  obtain ⟨tail, heq, htail⟩ := process_pdf_unprocessed _ _ _ _ _ _ _ _ _ _ _ _ h
  intro e he
  rw [heq] at he
  rcases List.mem_append.mp he with h2 | h2
  · exact h0 e h2
  · exact ((htail e h2).2).imp (fun hlt => le_of_lt hlt)

theorem validate_ranges_error (total_pages : ℤ) :
    ∀ (page_ranges : List (ℤ × ℤ)),
    (∃ pr ∈ page_ranges, pr.1 < 1 ∨ pr.2 > total_pages ∨ pr.1 > pr.2) →
    ∃ msg, validate_ranges total_pages page_ranges = .error msg := by
  intro page_ranges
  induction page_ranges with
  | nil => rintro ⟨pr, hpr, -⟩; cases hpr
  | cons r rest ih =>
    rintro ⟨pr, hpr, hbad⟩
    obtain ⟨a, b⟩ := r
    rw [validate_ranges]
    by_cases h1 : a < 1
    · exact ⟨_, by rw [if_pos h1]⟩
    rw [if_neg h1]
    by_cases h2 : b > total_pages
    · exact ⟨_, by rw [if_pos h2]⟩
    rw [if_neg h2]
    by_cases h3 : a > b
    · exact ⟨_, by rw [if_pos h3]⟩
    rw [if_neg h3]
    rcases List.mem_cons.mp hpr with h4 | h4
    · rw [h4] at hbad
      simp at hbad
      omega
    · exact ih ⟨pr, h4, hbad⟩

/-- C9: organize_document of the organizer.py prototype validates every page
range in its input list before creating any output, so when some range is
invalid (start below 1, end beyond total_pages, or start above end) it
returns an error with the filesystem and the accumulated metadata list
unchanged. -/
theorem organize_document_ranges_atomic (fs : List String) (output_dir source_pdf : String)
    (source_exists : Bool) (total_pages : ℤ) (page_ranges : List (ℤ × ℤ))
    (document_type : String) (dry_run overwrite : Bool) (meta : List DocumentMetadata)
    (hbad : ∃ pr ∈ page_ranges, pr.1 < 1 ∨ pr.2 > total_pages ∨ pr.1 > pr.2) :
    ∃ msg, organize_document_ranges fs output_dir source_pdf source_exists total_pages
      page_ranges document_type dry_run overwrite meta = (.error msg, fs, meta) := by
  unfold organize_document_ranges
  by_cases hex : source_exists
  · rw [if_neg (by simpa using hex)]
    obtain ⟨msg, hmsg⟩ := validate_ranges_error total_pages page_ranges hbad
    rw [hmsg]
    exact ⟨msg, rfl⟩
  · rw [if_pos (by simpa using hex)]
    exact ⟨_, rfl⟩

theorem organize_document_collision_suffix_witness :
    ∃ art fs1, organize_document ["out/Will/a.pdf"] "out" 3 "doc.pdf" 1 2 "Will" false false
        (some "a.pdf") = .ok (art, fs1) ∧
      art.output_path = some ("out" ++ "/" ++ "Will" ++ "/" ++ art.filename) ∧
      ("out" ++ "/" ++ "Will" ++ "/" ++ art.filename) ∉ ["out/Will/a.pdf"] ∧
      fs1 = ("out" ++ "/" ++ "Will" ++ "/" ++ art.filename) :: ["out/Will/a.pdf"] ∧
      ∃ k, art.filename = candidate_name "a.pdf" k ∧
        (∀ i, i < k → ("out" ++ "/" ++ "Will" ++ "/" ++ candidate_name "a.pdf" i) ∈
          ["out/Will/a.pdf"]) ∧
        (("out" ++ "/" ++ "Will" ++ "/" ++ "a.pdf") ∈ ["out/Will/a.pdf"] →
          1 ≤ k ∧ art.filename = suffixed "a.pdf" k) :=
  (organize_document_collision_suffix ["out/Will/a.pdf"] "out" 3 "doc.pdf" 1 2 "Will"
    false true (some "a.pdf") (by decide) (by decide) (by decide)).2

theorem organize_document_destination_path_witness :
    organize_document [] "out" 3 "doc.pdf" 1 2 "Will" false false none =
      .ok (⟨"doc.pdf", 1, 2, "Will", default_filename "doc.pdf" 1 2, 1,
            some ("out" ++ "/" ++ "Will" ++ "/" ++ default_filename "doc.pdf" 1 2)⟩,
           [("out" ++ "/" ++ "Will" ++ "/" ++ default_filename "doc.pdf" 1 2)]) ∧
    (∀ f, (none : Option String) = some f → default_filename "doc.pdf" 1 2 = f) ∧
    ((none : Option String) = none → default_filename "doc.pdf" 1 2 =
      stem "doc.pdf" ++ "_pages_" ++ toString (1 : ℤ) ++ "-" ++ toString (2 : ℤ) ++ ".pdf") :=
  organize_document_destination_path [] "out" 3 "doc.pdf" 1 2 "Will" false none
    (by decide) (by decide) (by decide) (by decide)

theorem process_directory_dry_run_purity_witness :
    (ScanState.fs ⟨2, ∅, [⟨"in/a.pdf", 1, 1, "Unorganized", "unorganized_pages_1-1.pdf", 1,
        none⟩], [("in/a.pdf", [1])], []⟩) = [] ∧
    ∃ new, (ScanState.artifacts ⟨2, ∅, [⟨"in/a.pdf", 1, 1, "Unorganized",
        "unorganized_pages_1-1.pdf", 1, none⟩], [("in/a.pdf", [1])], []⟩) =
        [] ++ new ∧ ∀ a ∈ new, a.output_path = none :=
  process_directory_dry_run_purity [⟨"in/a.pdf", 1, empty_classifier⟩] "out" 1 false 5 [] [] []
    ⟨2, ∅, [⟨"in/a.pdf", 1, 1, "Unorganized", "unorganized_pages_1-1.pdf", 1, none⟩],
     [("in/a.pdf", [1])], []⟩ (by decide)

theorem process_pdf_coverage_witness :
    ∃ new, (ScanState.artifacts ⟨3, ∅, [⟨"doc.pdf", 1, 2, "Unorganized",
        "unorganized_pages_1-2.pdf", 1, none⟩], [("doc.pdf", [1, 2])], []⟩) =
        [] ++ new ∧
      covered new = Finset.Icc 1 2 ∧
      List.Pairwise (fun A B => Disjoint A B) (ranges new) :=
  (process_pdf_coverage empty_classifier "out" "doc.pdf" 2 1 false true 5 [] [] []
    ⟨3, ∅, [⟨"doc.pdf", 1, 2, "Unorganized", "unorganized_pages_1-2.pdf", 1, none⟩],
     [("doc.pdf", [1, 2])], []⟩ (by decide)).1

theorem process_pdf_unclaimed_groups_witness :
    ∃ scanArts up,
      (∀ p, p ∈ up ↔ 1 ≤ p ∧ p ≤ (2 : ℤ) ∧ p ∉ covered scanArts) ∧
      List.Pairwise (· < ·) up ∧
      (group_runs up).flatten = up ∧
      (∀ g ∈ group_runs up, g ≠ [] ∧ List.Chain' (fun a b => b = a + 1) g ∧
        g.headD 0 - 1 ∉ up ∧ g.getLastD 0 + 1 ∉ up) ∧
      (true = true →
        (ScanState.artifacts ⟨3, ∅, [⟨"doc.pdf", 1, 2, "Unorganized",
            "unorganized_pages_1-2.pdf", 1, none⟩], [("doc.pdf", [1, 2])], []⟩) =
          [] ++ scanArts ++ (group_runs up).map (fun g =>
          ⟨"doc.pdf", g.headD 0, g.getLastD 0, "Unorganized", unorganized_name g, 1,
            none⟩)) ∧
      (true = false →
        (∀ g ∈ group_runs up,
          ("out" ++ "/" ++ "Unorganized" ++ "/" ++ unorganized_name g) ∉ ([] : List String) ∧
          ∀ a ∈ scanArts, a.output_path ≠
            some ("out" ++ "/" ++ "Unorganized" ++ "/" ++ unorganized_name g)) →
        (ScanState.artifacts ⟨3, ∅, [⟨"doc.pdf", 1, 2, "Unorganized",
            "unorganized_pages_1-2.pdf", 1, none⟩], [("doc.pdf", [1, 2])], []⟩) =
          [] ++ scanArts ++ (group_runs up).map (fun g =>
          ⟨"doc.pdf", g.headD 0, g.getLastD 0, "Unorganized", unorganized_name g, 1,
            some ("out" ++ "/" ++ "Unorganized" ++ "/" ++ unorganized_name g)⟩)) :=
  process_pdf_unclaimed_groups empty_classifier "out" "doc.pdf" 2 1 false true 5 [] [] []
    ⟨3, ∅, [⟨"doc.pdf", 1, 2, "Unorganized", "unorganized_pages_1-2.pdf", 1, none⟩],
     [("doc.pdf", [1, 2])], []⟩ (by decide)

theorem step_window_advance_witness :
    ((empty_classifier 1 (min (1 + 2 - 1) 3)).isEmpty = true →
      (ScanState.current_page ⟨2, ∅, [], [], []⟩) =
        (ScanState.current_page ⟨1, ∅, [], [], []⟩) + 1) ∧
    ((empty_classifier 1 (min (1 + 2 - 1) 3)).isEmpty = false →
      (ScanState.current_page ⟨2, ∅, [], [], []⟩) =
        if h2 : (Finset.Nonempty (ScanState.processed ⟨2, ∅, [], [], []⟩)) then
          (ScanState.processed ⟨2, ∅, [], [], []⟩).max' h2 + 1
        else min (1 + 2 - 1) 3 + 1) :=
  step_window_advance empty_classifier "out" "doc.pdf" 3 2 false false
    ⟨1, ∅, [], [], []⟩ ⟨2, ∅, [], [], []⟩ (by decide)

theorem save_metadata_shape_and_sorted_witness :
    (save_metadata [] []).keys = ["documents", "unprocessed_pages"] ∧
    (∀ d : DocumentMetadata, (artifact_record d).keys =
      ["source", "start_page", "end_page", "type", "filename", "confidence", "output_path"]) ∧
    (∀ e ∈ (ScanState.unprocessed ⟨3, ∅, [⟨"doc.pdf", 1, 2, "Unorganized",
        "unorganized_pages_1-2.pdf", 1, none⟩], [("doc.pdf", [1, 2])], []⟩),
      List.Sorted (· ≤ ·) e.2) :=
  save_metadata_shape_and_sorted [] [] empty_classifier "out" "doc.pdf" 2 1 false true 5 [] [] []
    ⟨3, ∅, [⟨"doc.pdf", 1, 2, "Unorganized", "unorganized_pages_1-2.pdf", 1, none⟩],
     [("doc.pdf", [1, 2])], []⟩ (by decide) (by simp)

theorem organize_document_ranges_atomic_witness :
    ∃ msg, organize_document_ranges [] "out" "src.pdf" true 3 [((0 : ℤ), (3 : ℤ))] "Will"
      false false [] = (.error msg, [], []) :=
  organize_document_ranges_atomic [] "out" "src.pdf" true 3 [(0, 3)] "Will" false false []
    ⟨(0, 3), by simp, by norm_num⟩

